import Mathlib

/-!
Verification development for the data-transformation core of OmniHelper.js
(src/OmniHelper.js).  The JavaScript functions are shallowly embedded as
executable Lean definitions over an inductive `Value` type mirroring the
library's data model (null / undefined / boolean / number / text / date /
sequence / keyed mapping).  Numbers are modelled as integers (the claims
under study never exercise fractional or NaN arithmetic); keyed mappings are
insertion-ordered association lists with unique keys (JavaScript objects
cannot hold a key twice); prototype-chain lookups are outside the model
(property reads are own-property reads).  The library runs under
`'use strict'` (line 15 of the source), so property assignment on a
primitive value throws a TypeError rather than being silently dropped.
-/

namespace Omni

/-- The `Value` data model of the transform engine. -/
inductive Value : Type where
  | vnull : Value
  | vundef : Value
  | vbool (b : Bool) : Value
  | vnum (n : Int) : Value
  | vstr (s : String) : Value
  | vdate (t : Int) : Value
  | varr (elems : List Value) : Value
  | vobj (fields : List (String × Value)) : Value
deriving Repr

namespace Value

mutual

/-- Meta-level structural equality of model values (used to state theorems
and decide concrete goals; this is not the library's `isEqual`). -/
def beq : Value → Value → Bool
  | vnull, vnull => true
  | vundef, vundef => true
  | vbool a, vbool b => a == b
  | vnum a, vnum b => a == b
  | vstr a, vstr b => a == b
  | vdate a, vdate b => a == b
  | varr xs, varr ys => beqList xs ys
  | vobj fs, vobj gs => beqFields fs gs
  | _, _ => false

def beqList : List Value → List Value → Bool
  | [], [] => true
  | x :: xs, y :: ys => beq x y && beqList xs ys
  | _, _ => false

def beqFields : List (String × Value) → List (String × Value) → Bool
  | [], [] => true
  | (k, v) :: fs, (l, w) :: gs => k == l && beq v w && beqFields fs gs
  | _, _ => false

end

end Value

open Value

/-! ## Basic JavaScript-semantics helpers (dynamic type probes of the source) -/

/-- `OmniHelper.Utils.isObject` (source lines 2820-2822):
`value !== null && typeof value === 'object' && !Array.isArray(value)`.
True for keyed mappings and for date objects, false for sequences,
primitives, null and undefined. -/
def isObject : Value → Bool
  | .vobj _ => true
  | .vdate _ => true
  | _ => false

/-- `v === undefined`. -/
def isUndef : Value → Bool
  | .vundef => true
  | _ => false

/-- `v === null || v === undefined`. -/
def isNullOrUndef : Value → Bool
  | .vnull => true
  | .vundef => true
  | _ => false

/-- JavaScript truthiness (`!v` is `!truthy v`).  `NaN` is not representable
in the integer number model. -/
def truthy : Value → Bool
  | .vnull => false
  | .vundef => false
  | .vbool b => b
  | .vnum n => n != 0
  | .vstr s => s ≠ ""
  | .vdate _ => true
  | .varr _ => true
  | .vobj _ => true

/-- JavaScript `typeof` (note `typeof null` is `"object"`). -/
def jsTypeof : Value → String
  | .vnull => "object"
  | .vundef => "undefined"
  | .vbool _ => "boolean"
  | .vnum _ => "number"
  | .vstr _ => "string"
  | .vdate _ => "object"
  | .varr _ => "object"
  | .vobj _ => "object"

/-- First-match association-list lookup: the own property of a JS object. -/
def lookupField : List (String × Value) → String → Option Value
  | [], _ => none
  | (k, v) :: rest, key => if k = key then some v else lookupField rest key

/-- JS property assignment on an object: an existing key keeps its position,
a new key is appended in insertion order. -/
def setFieldList : List (String × Value) → String → Value → List (String × Value)
  | [], key, v => [(key, v)]
  | (k, w) :: rest, key, v =>
      if k = key then (k, v) :: rest else (k, w) :: setFieldList rest key v

/-- The numeric value of a decimal digit. -/
def charDigit (c : Char) : Option Nat :=
  if '0' ≤ c ∧ c ≤ '9' then some (c.toNat - '0'.toNat) else none

/-- Left-to-right decimal accumulation over a digit list. -/
def digitsVal : List Char → Nat → Option Nat
  | [], acc => some acc
  | c :: cs, acc =>
      match charDigit c with
      | some d => digitsVal cs (acc * 10 + d)
      | none => none

/-- Canonical array-index strings (`"0"`, `"1"`, ... — digits only, no
leading zero). -/
def canonIndex (s : String) : Option Nat :=
  match s.data with
  | [] => none
  | c :: cs => if c = '0' ∧ cs ≠ [] then none else digitsVal (c :: cs) 0

/-- Own-property read `v[k]`, yielding `undefined` when absent.  Sequences
expose their elements under canonical index strings and `length`; text
exposes its characters and `length`.  Properties inherited from prototypes
(e.g. `toString`) are functions, which lie outside the `Value` data model
and are not represented. -/
def getProp : Value → String → Value
  | .vobj m, k => (lookupField m k).getD .vundef
  | .varr xs, k =>
      if k = "length" then .vnum xs.length
      else
        match canonIndex k with
        | some i => (xs[i]?).getD .vundef
        | none => .vundef
  | .vstr s, k =>
      if k = "length" then .vnum s.length
      else
        match canonIndex k with
        | some i =>
            match s.data[i]? with
            | some c => .vstr (String.singleton c)
            | none => .vundef
        | none => .vundef
  | _, _ => (.vundef)

/-- Duplicate-freedom of a key list, as a boolean. -/
def nodupKeys : List String → Bool
  | [] => true
  | k :: ks => !(ks.contains k) && nodupKeys ks

mutual

/-- Well-formed values: every keyed mapping in the tree has duplicate-free
keys.  Exactly these trees denote JavaScript values. -/
def wf : Value → Bool
  | .varr xs => wfList xs
  | .vobj fs => nodupKeys (fs.map Prod.fst) && wfFields fs
  | _ => true

def wfList : List Value → Bool
  | [] => true
  | x :: xs => wf x && wfList xs

def wfFields : List (String × Value) → Bool
  | [] => true
  | (_, v) :: fs => wf v && wfFields fs

end

mutual

/-- Values with no `undefined` inside: a key bound to `undefined` is
indistinguishable from an absent key in the spec's data model (`null/absence`
is a single kind there), so such bindings are excluded where a claim
distinguishes present from missing keys. -/
def undefFree : Value → Bool
  | .vundef => false
  | .varr xs => undefFreeList xs
  | .vobj fs => undefFreeFields fs
  | _ => true

def undefFreeList : List Value → Bool
  | [] => true
  | x :: xs => undefFree x && undefFreeList xs

def undefFreeFields : List (String × Value) → Bool
  | [] => true
  | (_, v) :: fs => undefFree v && undefFreeFields fs

end

/-! ## `OmniHelper.Utils.deepClone` (source lines 1312-1338)

Null and non-objects are returned as-is; a date becomes a fresh date with the
same timestamp; an array is cloned element-wise; an object is cloned own-key
by own-key in insertion order.  At the level of value trees (ignoring
heap identity, which the heap model below accounts for) the clone carries
exactly the same tree. -/

mutual

def deepClone : Value → Value
  | .vnull => .vnull
  | .vundef => .vundef
  | .vbool b => .vbool b
  | .vnum n => .vnum n
  | .vstr s => .vstr s
  | .vdate t => .vdate t
  | .varr xs => .varr (deepCloneList xs)
  | .vobj fs => .vobj (deepCloneFields fs)

def deepCloneList : List Value → List Value
  | [] => []
  | x :: xs => deepClone x :: deepCloneList xs

def deepCloneFields : List (String × Value) → List (String × Value)
  | [] => []
  | (k, v) :: fs => (k, deepClone v) :: deepCloneFields fs

end

/-! ## `OmniHelper.Utils.isEqual` (source lines 1517-1541) -/

/-- JavaScript `===` restricted to the `Value` model.  On two composite
values it returns `false` (the general case for distinct references); when
both sides are literally the same reference the structural branch of
`isEqual` below returns `true` as well, so the function as a whole computes
the same answer as the source. -/
def jsStrictEq : Value → Value → Bool
  | .vnull, .vnull => true
  | .vundef, .vundef => true
  | .vbool a, .vbool b => a == b
  | .vnum a, .vnum b => a == b
  | .vstr a, .vstr b => a == b
  | _, _ => false

mutual

/-- `isEqual(a, b)`: strict equality first; `null` compares equal only to
itself; mismatched `typeof` is unequal; for objects, an array/non-array
mismatch is unequal, two dates compare by timestamp, and otherwise the own
keys are compared for count, presence on `b`, and recursive value equality.
A date has no own enumerable keys, so (as in the source) a date and an empty
mapping compare equal. -/
def isEqual (a b : Value) : Bool :=
  if jsStrictEq a b then true
  else
    match a, b with
    | .vnull, _ => false
    | _, .vnull => false
    | .vdate t, .vdate u => t == u
    | .vdate _, .vobj m => m.isEmpty
    | .vobj m, .vdate _ => m.isEmpty
    | .varr xs, .varr ys => xs.length == ys.length && isEqualList xs ys
    | .vobj fa, .vobj fb => fa.length == fb.length && isEqualFields fa fb
    | _, _ => false

/-- The key loop of `isEqual` specialised to arrays: with the length check
already done, index-wise recursive comparison. -/
def isEqualList : List Value → List Value → Bool
  | [], _ => true
  | _ :: _, [] => false
  | x :: xs, y :: ys => isEqual x y && isEqualList xs ys

/-- The key loop of `isEqual` on objects: for every own key of `a` (a JS
object holds each key once), `b` must have the key and the values must be
recursively equal. -/
def isEqualFields : List (String × Value) → List (String × Value) → Bool
  | [], _ => true
  | (k, v) :: rest, fb =>
      (match lookupField fb k with
       | some w => isEqual v w
       | none => false)
      && isEqualFields rest fb

end

/-! ## `OmniHelper.Utils.deepMerge` (source lines 1346-1366) -/

/-- Property assignment `result[key] = v` inside `deepMerge`, whose write
target is always the fresh clone of an `isObject` target.  A write on a date
object stores an expando property in JS; expandos are not representable on
the model's date values and no claim exercises them. -/
def assignProp : Value → String → Value → Value
  | .vobj m, k, v => .vobj (setFieldList m k v)
  | other, _, _ => other

mutual

/-- `deepMerge(target, source)`: clone the target; when both arguments are
`isObject`, walk the source's own keys in order.  A source value that is an
`isObject` triggers `result[key] = deepMerge(target[key], source[key])`
(preceded by a dead store of `{}` when `target[key]` is falsy); any other
source value (including arrays) overwrites wholesale. -/
def deepMerge (target source : Value) : Value :=
  let result := deepClone target
  if isObject target && isObject source then
    match source with
    | .vobj sf => mergeFields target result sf
    | _ => result    -- a date source has no own enumerable keys: loop body never runs
  else result

/-- The `for (const key in source)` loop of `deepMerge`. -/
def mergeFields (target result : Value) (l : List (String × Value)) : Value :=
  match l with
  | [] => result
  | (k, sv) :: rest =>
      if isObject sv then
        -- if (!target[key]) { result[key] = {}; }  (overwritten just below)
        let res1 := if truthy (getProp target k) then result
                    else assignProp result k (.vobj [])
        mergeFields target (assignProp res1 k (deepMerge (getProp target k) sv)) rest
      else
        mergeFields target (assignProp result k sv) rest

end

/-! ## `OmniHelper.Data.flatten` (source lines 101-128) -/

mutual

/-- `flattenRecursive(item, currentDepth)`: once `currentDepth >= depth` the
item is kept whole; arrays and objects recurse into their elements / own
values with depth + 1; `null` and primitives are leaves.  A date passes the
`typeof === 'object'` test but has no own enumerable keys, so it flattens
to nothing. -/
def flattenRec (depth : WithTop Int) (item : Value) (currentDepth : Int) : List Value :=
  if depth ≤ (currentDepth : WithTop Int) then [item]
  else
    match item with
    | .varr xs => flattenRecList depth xs (currentDepth + 1)
    | .vobj fs => flattenRecFields depth fs (currentDepth + 1)
    | .vdate _ => []
    | prim => [prim]

def flattenRecList (depth : WithTop Int) (xs : List Value) (d : Int) : List Value :=
  match xs with
  | [] => []
  | x :: rest => flattenRec depth x d ++ flattenRecList depth rest d

def flattenRecFields (depth : WithTop Int) (fs : List (String × Value)) (d : Int) : List Value :=
  match fs with
  | [] => []
  | (_, v) :: rest => flattenRec depth v d ++ flattenRecFields depth rest d

end

/-- `Data.flatten(data, depth)`.  The source begins with
`depth = depth || Infinity`, so an omitted depth (`none`) and any falsy
depth — in particular `0` — both become unlimited depth. -/
def flatten (data : Value) (depth : Option Int) : List Value :=
  let d : WithTop Int :=
    match depth with
    | none => ⊤
    | some n => if n = 0 then ⊤ else (n : WithTop Int)
  flattenRec d data 0

/-! ## Thrown errors -/

/-- The class of a thrown JS error: `new Error(...)` versus a `TypeError`
(whether thrown by the runtime or constructed). -/
inductive ErrKind where
  | error
  | typeError
deriving Repr, DecidableEq

/-- A thrown JavaScript error: its class and its message. -/
structure JSError where
  kind : ErrKind
  message : String
deriving Repr, DecidableEq

/-! ## `OmniHelper.Utils.get` (source lines 1413-1427) and
`OmniHelper.Utils.set` (source lines 1436-1451) -/

/-- `String.prototype.split` with a one-character separator (as used by the
dot-path helpers, `path.split('.')`): adjacent separators yield empty
segments, and the result is never the empty list. -/
def splitChGo (sep : Char) : List Char → List Char → List String
  | [], acc => [String.mk acc.reverse]
  | c :: cs, acc =>
      if c = sep then String.mk acc.reverse :: splitChGo sep cs []
      else splitChGo sep cs (c :: acc)

def jsSplit (sep : Char) (s : String) : List String := splitChGo sep s.data []

/-- The key loop of `get`: bail out to the default on `null`/`undefined`
before each read; after the loop, `undefined` also yields the default. -/
def getPath : Value → List String → Value → Value
  | cur, [], d => if isUndef cur then d else cur
  | cur, k :: ks, d =>
      if isNullOrUndef cur then d
      else getPath (getProp cur k) ks d

/-- `get(obj, path, defaultValue)`. -/
def get (obj : Value) (path : String) (defaultValue : Value) : Value :=
  if isObject obj then getPath obj (jsSplit '.' path) defaultValue
  else defaultValue

/-- Strict-mode property assignment `cur[k] = v`.  Assignment on `null` or
`undefined` always throws; under `'use strict'` (source line 15) assignment
on any other primitive throws a TypeError as well.  Arrays and dates are
ordinary extensible objects, so assignment on them succeeds: element writes
at canonical in-range (and appending) indices are modelled exactly; a named
expando on an array or date, sparse extension, and `length` truncation are
not representable in `Value`, so those writes are modelled as succeeding
with the stored property dropped — theorems about such writes assert only
that no error is thrown, never the resulting value, and no theorem descends
through a dropped expando. -/
def setProp : Value → String → Value → Except JSError Value
  | .vobj m, k, v => .ok (.vobj (setFieldList m k v))
  | .varr xs, k, v =>
      (match canonIndex k with
       | some i =>
           if i < xs.length then .ok (.varr (xs.set i v))
           else if i = xs.length then .ok (.varr (xs ++ [v]))
           else .ok (.varr xs)
       | none => .ok (.varr xs))
  | .vdate t, _, _ => .ok (.vdate t)
  | .vnull, _, _ => .error ⟨.typeError, "Cannot set properties of null"⟩
  | .vundef, _, _ => .error ⟨.typeError, "Cannot set properties of undefined"⟩
  | _, _, _ => .error ⟨.typeError, "Cannot create property on a primitive value"⟩

/-- The traversal loop of `set`: on each intermediate segment, a falsy
`current[k]` is overwritten by a fresh `{}` in the parent (strict mode: that
write throws when the parent is a primitive), then the walk descends into
the re-read `current[k]`; the final segment is a plain assignment.  In-place
mutation of the nested child is rendered as writing the transformed child
back into its parent. -/
def setGo : Value → List String → Value → Except JSError Value
  | cur, [], _ => .ok cur
  | cur, [k], v => setProp cur k v
  | cur, k :: ks, v =>
      if isNullOrUndef cur then
        .error ⟨.typeError, "Cannot read properties of undefined or null"⟩
      else
        match (if truthy (getProp cur k) then Except.ok cur else setProp cur k (.vobj [])) with
        | .error e => .error e
        | .ok cur1 =>
            match setGo (getProp cur1 k) ks v with
            | .error e => .error e
            | .ok child => setProp cur1 k child

/-- `set(obj, path, value)`: a non-`isObject` obj is returned untouched. -/
def set (obj : Value) (path : String) (v : Value) : Except JSError Value :=
  if isObject obj then setGo obj (jsSplit '.' path) v
  else .ok obj

/-! ## `OmniHelper.Data.groupBy` (source lines 149-168) -/

mutual

/-- JavaScript `String(v)` (ToPropertyKey) for the value kinds of the model.
A date's JS rendering is a host- and timezone-dependent calendar string
(with second granularity, so distinct timestamps can collide); no pure
function of the timestamp reproduces it, so the model uses an injective
stand-in and the `groupBy` theorem excludes date-valued group keys via
`keyedOk`. -/
def keyToStr : Value → String
  | .vnull => "null"
  | .vundef => "undefined"
  | .vbool b => cond b "true" "false"
  | .vnum n => toString n
  | .vstr s => s
  | .vdate t => "Date(" ++ toString t ++ ")"
  | .varr xs => keyToStrList xs
  | .vobj _ => "[object Object]"

/-- `Array.prototype.toString`: comma-joined elements, with `null` and
`undefined` elements rendered empty. -/
def keyToStrList : List Value → String
  | [] => ""
  | [x] => if isNullOrUndef x then "" else keyToStr x
  | x :: xs =>
      (if isNullOrUndef x then "" else keyToStr x) ++ "," ++ keyToStrList xs

end

/-- `String.prototype.toLowerCase` on the ASCII range (`Char.toLower` maps
only `A`-`Z`).  The source's `toLowerCase()` folds the full Unicode case
table, which is outside the model; the two agree exactly on ASCII text, and
the sort theorems therefore carry an `asciiKeys` hypothesis restricting the
compared key values to ASCII. -/
def jsToLower (s : String) : String := String.mk (s.data.map Char.toLower)

/-- JavaScript `ToNumber` on the model's values, `none` standing for `NaN`.
Text parses as an optionally signed decimal integer (blank text is `0`);
arrays and objects coerce through `ToPrimitive`, which is outside the model
— the sort theorems restrict key values to text and numbers. -/
def trimChars (l : List Char) : List Char :=
  ((l.dropWhile Char.isWhitespace).reverse.dropWhile Char.isWhitespace).reverse

/-- `ToNumber` on trimmed text: blank is 0, an optionally signed decimal
digit string parses, anything else is `NaN` (`none`). -/
def parseIntChars : List Char → Option Int
  | [] => some 0
  | '-' :: cs =>
      (match cs with
       | [] => none
       | _ => (digitsVal cs 0).map (fun n => -(n : Int)))
  | '+' :: cs =>
      (match cs with
       | [] => none
       | _ => (digitsVal cs 0).map (fun n => (n : Int)))
  | cs => (digitsVal cs 0).map (fun n => (n : Int))

def toNumberOpt : Value → Option Int
  | .vnum n => some n
  | .vbool b => some (cond b 1 0)
  | .vnull => some 0
  | .vundef => none
  | .vstr s => parseIntChars (trimChars s.data)
  | .vdate t => some t
  | .varr _ => none
  | .vobj _ => none

/-- Lexicographic order on character lists by code point.  JS `<` compares
UTF-16 code units, which agrees with code-point order on the basic
multilingual plane but not beyond it; the sort theorems' `asciiKeys`
hypothesis keeps the compared text inside the common regime. -/
def charListLt : List Char → List Char → Bool
  | [], [] => false
  | [], _ :: _ => true
  | _ :: _, [] => false
  | c :: cs, d :: ds => if c < d then true else if d < c then false else charListLt cs ds

/-- JS `<` on two text values. -/
def strLt (a b : String) : Bool := charListLt a.data b.data

/-- Numeric comparison on `ToNumber` results (`none` is `NaN`: false). -/
def numLtOpt : Option Int → Option Int → Bool
  | some x, some y => decide (x < y)
  | _, _ => false

/-- JavaScript `<`: two text values compare lexicographically by code unit;
otherwise both sides are coerced to numbers and any `NaN` makes the
comparison false. -/
def jsLt : Value → Value → Bool
  | .vstr a, .vstr b => strLt a b
  | a, b => numLtOpt (toNumberOpt a) (toNumberOpt b)

/-- The `if (typeof valA === 'string') valA = valA.toLowerCase();` step. -/
def lowerIfStr : Value → Value
  | .vstr s => .vstr (jsToLower s)
  | v => v

/-- The comparator body of `sortBy` (source lines 187-202): walk the keys;
the order for a key defaults to `'asc'` when missing or falsy; text values
are lowercased before comparing; `<` and `>` decide the sign (flipped for a
non-`'asc'` order); equal keys fall through to the next key; all keys
exhausted yields 0. -/
def cmpLoop : List String → List String → Value → Value → Int
  | [], _, _, _ => 0
  | k :: ks, os, a, b =>
      let o := match os with
               | [] => "asc"
               | o0 :: _ => if o0 = "" then "asc" else o0
      let valA := lowerIfStr (getProp a k)
      let valB := lowerIfStr (getProp b k)
      if jsLt valA valB then (if o = "asc" then -1 else 1)
      else if jsLt valB valA then (if o = "asc" then 1 else -1)
      else cmpLoop ks os.tail a b

/-- Insert into a sorted list, after every element not strictly greater:
the insertion step of a stable sort. -/
def insertCmp {α : Type} (cmp : α → α → Int) (x : α) : List α → List α
  | [] => [x]
  | y :: ys => if cmp x y ≤ 0 then x :: y :: ys else y :: insertCmp cmp x ys

/-- Stable sort by a comparator: the denotation of `Array.prototype.sort`,
which ECMA-262 requires to be stable (and which, for a consistent
comparator, has a unique sorted stable output). -/
def sortCmp {α : Type} (cmp : α → α → Int) : List α → List α
  | [] => []
  | x :: xs => insertCmp cmp x (sortCmp cmp xs)

/-- `Data.sortBy(array, key, order)` with the key and order arguments
already in their array-normalised form (`keys`/`orders` of the source). -/
def sortBy (v : Value) (keys : List String) (orders : List String) : Except JSError Value :=
  match v with
  | .varr xs => .ok (.varr (sortCmp (cmpLoop keys orders) xs))
  | _ => .error ⟨.error, "Input must be an array"⟩

/-! ## `OmniHelper.Data.pluck` (314-334), `Data.reduce` (343-348),
`Data.flattenArray` (136-141) -/

/-- Primitive (non-heap) JavaScript values. -/
inductive Prim where
  | pnull : Prim
  | pundef : Prim
  | pbool (b : Bool) : Prim
  | pnum (n : Int) : Prim
  | pstr (s : String) : Prim
deriving Repr, DecidableEq

/-- A runtime value: a primitive or a reference to a heap cell. -/
inductive JSVal where
  | prim (p : Prim) : JSVal
  | ref (a : Nat) : JSVal
deriving Repr, DecidableEq

/-- A heap cell: a date object, an array, or a plain object. -/
inductive Cell where
  | date (t : Int) : Cell
  | arr (elems : List JSVal) : Cell
  | obj (fields : List (String × JSVal)) : Cell
deriving Repr, DecidableEq

/-- The heap: cell `a` is `cells[a]`; allocation appends. -/
structure Heap where
  cells : List Cell
deriving Repr, DecidableEq

def Heap.size (σ : Heap) : Nat := σ.cells.length

def Heap.read (σ : Heap) (a : Nat) : Option Cell := σ.cells[a]?

def Heap.alloc (σ : Heap) (c : Cell) : Heap × Nat :=
  (⟨σ.cells ++ [c]⟩, σ.cells.length)

def Heap.store (σ : Heap) (a : Nat) (c : Cell) : Heap := ⟨σ.cells.set a c⟩

def lookupFieldH : List (String × JSVal) → String → Option JSVal
  | [], _ => none
  | (k, v) :: rest, key => if k = key then some v else lookupFieldH rest key

def setFieldListH : List (String × JSVal) → String → JSVal → List (String × JSVal)
  | [], key, v => [(key, v)]
  | (k, w) :: rest, key, v =>
      if k = key then (k, v) :: rest else (k, w) :: setFieldListH rest key v

def truthyPrim : Prim → Bool
  | .pnull => false
  | .pundef => false
  | .pbool b => b
  | .pnum n => n != 0
  | .pstr s => s ≠ ""

/-- Truthiness of a runtime value (references are always truthy). -/
def truthyH : JSVal → Bool
  | .prim p => truthyPrim p
  | .ref _ => true

/-- `Utils.isObject` over the heap: a reference to an object or date cell. -/
def isObjectH (σ : Heap) : JSVal → Bool
  | .prim _ => false
  | .ref a =>
      match σ.read a with
      | some (.obj _) => true
      | some (.date _) => true
      | _ => false

/-- Own-property read through the heap.  `deepMerge` reads properties only
of its `isObject` operands, so reads on primitives (string autoboxing)
need not be modelled here. -/
def getPropH (σ : Heap) : JSVal → String → JSVal
  | .ref a, k =>
      (match σ.read a with
       | some (.obj fs) => (lookupFieldH fs k).getD (.prim .pundef)
       | some (.arr xs) =>
           if k = "length" then .prim (.pnum xs.length)
           else
             (match canonIndex k with
              | some i => (xs[i]?).getD (.prim .pundef)
              | none => .prim .pundef)
       | _ => .prim .pundef)
  | .prim _, _ => (.prim .pundef)

/-- The heap effect of `target[k] = v` inside `deepMerge`, whose write
target is always the fresh clone of an `isObject` value (an object or date
cell).  An expando property on a date cell is not representable and is
dropped, which only forgets information allocated during the call itself. -/
def writePropH (σ : Heap) : JSVal → String → JSVal → Heap
  | .ref a, k, v =>
      (match σ.read a with
       | some (.obj fs) => σ.store a (.obj (setFieldListH fs k v))
       | _ => σ)
  | .prim _, _, _ => σ

mutual

/-- `Utils.deepClone` over the heap (source lines 1312-1338): primitives are
returned as-is; a date is re-allocated fresh with the same timestamp; arrays
and objects are cloned child-first into fresh cells.  Fuel bounds the
recursion (it is consumed along both depth and sibling lists; any
sufficiently large fuel succeeds on acyclic data). -/
def deepCloneH : Nat → Heap → JSVal → Option (Heap × JSVal)
  | 0, _, _ => none
  | _ + 1, σ, .prim p => some (σ, .prim p)
  | f + 1, σ, .ref a =>
      match σ.read a with
      | none => none
      | some (.date t) =>
          let al := σ.alloc (.date t)
          some (al.1, .ref al.2)
      | some (.arr xs) =>
          match cloneListH f σ xs with
          | none => none
          | some (σ1, ys) =>
              let al := σ1.alloc (.arr ys)
              some (al.1, .ref al.2)
      | some (.obj fs) =>
          match cloneFieldsH f σ fs with
          | none => none
          | some (σ1, gs) =>
              let al := σ1.alloc (.obj gs)
              some (al.1, .ref al.2)

def cloneListH : Nat → Heap → List JSVal → Option (Heap × List JSVal)
  | _, σ, [] => some (σ, [])
  | 0, _, _ :: _ => none
  | f + 1, σ, v :: vs =>
      match deepCloneH f σ v with
      | none => none
      | some (σ1, c) =>
          match cloneListH f σ1 vs with
          | none => none
          | some (σ2, cs) => some (σ2, c :: cs)

def cloneFieldsH : Nat → Heap → List (String × JSVal) → Option (Heap × List (String × JSVal))
  | _, σ, [] => some (σ, [])
  | 0, _, _ :: _ => none
  | f + 1, σ, (k, v) :: vs =>
      match deepCloneH f σ v with
      | none => none
      | some (σ1, c) =>
          match cloneFieldsH f σ1 vs with
          | none => none
          | some (σ2, cs) => some (σ2, (k, c) :: cs)

end

def primVal : Prim → Value
  | .pnull => .vnull
  | .pundef => .vundef
  | .pbool b => .vbool b
  | .pnum n => .vnum n
  | .pstr s => .vstr s

mutual

/-- Read back the value tree denoted by a runtime value in a heap
(fuel-bounded, consumed in the same pattern as `deepCloneH`; fails on
dangling references or exhausted fuel). -/
def decode : Nat → Heap → JSVal → Option Value
  | 0, _, _ => none
  | _ + 1, _, .prim p => some (primVal p)
  | f + 1, σ, .ref a =>
      match σ.read a with
      | none => none
      | some (.date t) => some (.vdate t)
      | some (.arr xs) => (decodeList f σ xs).map .varr
      | some (.obj fs) => (decodeFields f σ fs).map .vobj

def decodeList : Nat → Heap → List JSVal → Option (List Value)
  | _, _, [] => some []
  | 0, _, _ :: _ => none
  | f + 1, σ, v :: vs =>
      match decode f σ v, decodeList f σ vs with
      | some t, some ts => some (t :: ts)
      | _, _ => none

def decodeFields : Nat → Heap → List (String × JSVal) → Option (List (String × Value))
  | _, _, [] => some []
  | 0, _, _ :: _ => none
  | f + 1, σ, (k, v) :: vs =>
      match decode f σ v, decodeFields f σ vs with
      | some t, some ts => some ((k, t) :: ts)
      | _, _ => none

end

mutual

/-- `Utils.deepMerge` over the heap (source lines 1346-1366): clone the
target, then — when both operands are `isObject` — walk the source object's
own keys; an `isObject` source value triggers the dead store of a fresh
`{}` (when `target[key]` is falsy) followed by
`result[key] = deepMerge(target[key], source[key])`; any other source value
is written into the result wholesale (sharing the reference). -/
def deepMergeH : Nat → Heap → JSVal → JSVal → Option (Heap × JSVal)
  | 0, _, _, _ => none
  | f + 1, σ, t, s =>
      match deepCloneH (f + 1) σ t with
      | none => none
      | some (σ1, r) =>
          if isObjectH σ1 t && isObjectH σ1 s then
            match s with
            | .ref sa =>
                (match σ1.read sa with
                 | some (.obj sfs) =>
                     (mergeLoopH f σ1 t s r (sfs.map Prod.fst)).map (fun σ2 => (σ2, r))
                 | _ => some (σ1, r))
            | .prim _ => some (σ1, r)
          else some (σ1, r)

/-- The `for (const key in source)` loop of `deepMerge` over the heap. -/
def mergeLoopH : Nat → Heap → JSVal → JSVal → JSVal → List String → Option Heap
  | _, σ, _, _, _, [] => some σ
  | 0, _, _, _, _, _ :: _ => none
  | f + 1, σ, t, s, r, k :: ks =>
      let sv := getPropH σ s k
      if isObjectH σ sv then
        let σa := if truthyH (getPropH σ t k) then σ
                  else
                    let al := σ.alloc (.obj [])
                    writePropH al.1 r k (.ref al.2)
        match deepMergeH f σa (getPropH σa t k) (getPropH σa s k) with
        | none => none
        | some (σb, m) => mergeLoopH f (writePropH σb r k m) t s r ks
      else
        mergeLoopH f (writePropH σ r k sv) t s r ks

end

/-- A runtime value whose reference (if any) lies below `n`. -/
def valBound (n : Nat) : JSVal → Bool
  | .prim _ => true
  | .ref a => a < n

/-- The runtime values contained in a cell. -/
def cellVals : Cell → List JSVal
  | .date _ => []
  | .arr xs => xs
  | .obj fs => fs.map Prod.snd

def cellBound (n : Nat) (c : Cell) : Bool := (cellVals c).all (valBound n)

/-- Closed heap: every reference stored in a cell points into the heap. -/
def heapWF (σ : Heap) : Bool := σ.cells.all (cellBound σ.size)

/-- A runtime value that is a primitive or a reference at or above `n`
(i.e. into the fresh segment of a heap that had `n` cells). -/
def valFresh (n : Nat) : JSVal → Bool
  | .prim _ => true
  | .ref a => n ≤ a

def cellFresh (n : Nat) (c : Cell) : Bool := (cellVals c).all (valFresh n)

/-- Every cell at or above `n` holds only primitives and references at or
above `n`: nothing allocated after mark `n` reaches back below it, so the
fresh segment shares no substructure with the old heap. -/
def freshSegClosed (n : Nat) (σ : Heap) : Bool := (σ.cells.drop n).all (cellFresh n)

/-- The two heaps agree on every cell below `n`. -/
def agreesBelow (n : Nat) (σ σ2 : Heap) : Prop :=
  ∀ a, a < n → σ2.read a = σ.read a

/-! ## Spec-side notions used to state the claims -/

/-- The value stored at a dot-path, in the spec's sense: each segment
addresses one level of nested keyed mappings. -/
def storedAt : Value → List String → Option Value
  | v, [] => some v
  | .vobj m, k :: ks =>
      (match lookupField m k with
       | some v => storedAt v ks
       | none => none)
  | _, _ :: _ => none

/-- The traversal of `segs` from `obj` stays within keyed mappings until it
either completes or hits a genuinely absent key (after which `get` is
committed to its default regardless of the remaining segments). -/
def mappingChain : Value → List String → Bool
  | _, [] => true
  | .vobj m, k :: ks =>
      (match lookupField m k with
       | some v => mappingChain v ks
       | none => true)
  | _, _ :: _ => false

/-- Safe traversal for `set`: every intermediate segment (including the
parent of the final one) holds a keyed mapping, an absent key, or a falsy
value (which `set` overwrites with a fresh `{}`); a truthy non-mapping at an
intermediate segment is exactly the case excluded here. -/
def setSafe : Value → List String → Bool
  | _, [] => true
  | cur, [_] =>
      (match cur with
       | .vobj _ => true
       | _ => false)
  | cur, k :: ks =>
      (match cur with
       | .vobj m =>
           let child := (lookupField m k).getD .vundef
           setSafe (if truthy child then child else .vobj []) ks
       | _ => false)

/-- Spec-side single-value comparison for `sortBy` (this definition follows
the spec's words, for comparison with the source-derived comparator): text
compares case-insensitively, numbers numerically; the spec does not define
the order on other value kinds, and the sort theorems restrict key values
to text and numbers. -/
def specCmpVal : Value → Value → Int
  | .vstr x, .vstr y =>
      if strLt (jsToLower x) (jsToLower y) then -1
      else if strLt (jsToLower y) (jsToLower x) then 1 else 0
  | .vnum x, .vnum y => if x < y then -1 else if y < x then 1 else 0
  | _, _ => 0

/-- Spec-side multi-key comparison for `sortBy`: keys in order, a missing
direction defaults to ascending, `desc` flips the outcome, ties fall
through to the next key. -/
def specCmp : List String → List String → Value → Value → Int
  | [], _, _, _ => 0
  | k :: ks, os, a, b =>
      let dir := match os.head? with
                 | some o => o
                 | none => "asc"
      let c := specCmpVal (getProp a k) (getProp b k)
      let c2 := if dir = "desc" then -c else c
      if c2 = 0 then specCmp ks os.tail a b else c2

def isStrVal : Value → Bool
  | .vstr _ => true
  | _ => false

def isNumVal : Value → Bool
  | .vnum _ => true
  | _ => false

/-- Per-key homogeneity of sort-key values over the elements: under each
sort key, either every element carries a text value or every element
carries a number.  This is the regime in which the source's comparator is
consistent (ECMA-262 leaves the sort order implementation-defined for
inconsistent comparators). -/
def homogKeys (keys : List String) (xs : List Value) : Bool :=
  keys.all (fun k =>
    xs.all (fun x => isStrVal (getProp x k)) || xs.all (fun x => isNumVal (getProp x k)))

/-- Order arguments drawn from the documented `'asc'` / `'desc'` values. -/
def validOrders (os : List String) : Bool :=
  os.all (fun o => o = "asc" || o = "desc")

/-- Text whose characters are all ASCII. -/
def asciiString (s : String) : Bool := s.data.all (fun c => c.val < 128)

/-- Every text value under a sort key is ASCII: the regime where the
model's lowercasing (`jsToLower`, ASCII folding) and text order
(`charListLt`, code points) coincide exactly with the source's Unicode
`toLowerCase()` and UTF-16 code-unit `<`. -/
def asciiKeys (keys : List String) (xs : List Value) : Bool :=
  keys.all (fun k => xs.all (fun x =>
    match getProp x k with
    | .vstr s => asciiString s
    | _ => true))

/-- The effective direction for the current sort key:
`orders[i] || 'asc'` (missing or falsy entries mean ascending). -/
def hdOrder (os : List String) : String :=
  match os with
  | [] => "asc"
  | o0 :: _ => if o0 = "" then "asc" else o0

/-- One key step of the source's comparator, as a signed integer (the body
of the two `if` lines of `sortBy`, after lowercasing). -/
def colCmp (o : String) (va vb : Value) : Int :=
  if jsLt va vb then (if o = "asc" then -1 else 1)
  else if jsLt vb va then (if o = "asc" then 1 else -1)
  else 0

/-- Two comparator operands of the same primitive comparison kind (both
text or both numbers): the regime where JS `<` is a strict linear order. -/
def sameKind (u v : Value) : Prop :=
  (∃ p q, u = .vstr p ∧ v = .vstr q) ∨ (∃ m n, u = .vnum m ∧ v = .vnum n)

/-! # Theorems -/

theorem beq_iff : ∀ (a : Value), ∀ b, beq a b = true ↔ a = b := by
  refine fun a => @Value.rec
    (fun a => ∀ b, beq a b = true ↔ a = b)
    (fun xs => ∀ ys, beqList xs ys = true ↔ xs = ys)
    (fun fs => ∀ gs, beqFields fs gs = true ↔ fs = gs)
    (fun p => ∀ q : String × Value, (p.1 == q.1 && beq p.2 q.2) = true ↔ p = q)
    ?_ ?_ ?_ ?_ ?_ ?_ ?_ ?_ ?_ ?_ ?_ ?_ ?_ a
  case refine_1 => intro b; cases b <;> simp [beq]
  case refine_2 => intro b; cases b <;> simp [beq]
  case refine_3 => intro c b; cases b <;> simp [beq]
  case refine_4 => intro c b; cases b <;> simp [beq]
  case refine_5 => intro c b; cases b <;> simp [beq]
  case refine_6 => intro c b; cases b <;> simp [beq]
  case refine_7 => intro xs ih b; cases b <;> simp [beq, ih]
  case refine_8 => intro fs ih b; cases b <;> simp [beq, ih]
  case refine_9 => intro ys; cases ys <;> simp [beqList]
  case refine_10 => intro x xs ih1 ih2 ys; cases ys <;> simp [beqList, ih1, ih2]
  case refine_11 => intro gs; cases gs <;> simp [beqFields]
  case refine_12 => intro p ps ih1 ih2 gs; cases gs <;> simp [beqFields, ih1, ih2]
  case refine_13 =>
    intro k v ih q
    obtain ⟨qk, qv⟩ := q
    simp [ih, Prod.ext_iff]

instance : DecidableEq Value := fun a b =>
  decidable_of_iff (beq a b = true) (beq_iff a b)

instance : DecidableEq (Except JSError Value) := fun a b =>
  match a, b with
  | .ok x, .ok y => decidable_of_iff (x = y) (by simp)
  | .error x, .error y => decidable_of_iff (x = y) (by simp)
  | .ok _, .error _ => isFalse (by simp)
  | .error _, .ok _ => isFalse (by simp)

/-- Structural induction over `Value` with membership-style hypotheses for
the nested lists. -/
theorem value_ind (P : Value → Prop)
    (hnull : P .vnull) (hundef : P .vundef) (hbool : ∀ b, P (.vbool b))
    (hnum : ∀ n, P (.vnum n)) (hstr : ∀ s, P (.vstr s)) (hdate : ∀ t, P (.vdate t))
    (harr : ∀ xs, (∀ x ∈ xs, P x) → P (.varr xs))
    (hobj : ∀ fs, (∀ p ∈ fs, P p.2) → P (.vobj fs)) : ∀ v, P v := by
  refine fun v => @Value.rec P (fun xs => ∀ x ∈ xs, P x) (fun fs => ∀ p ∈ fs, P p.2)
    (fun p => P p.2) hnull hundef hbool hnum hstr hdate harr hobj
    ?_ ?_ ?_ ?_ ?_ v
  case refine_1 => intro x hx; cases hx
  case refine_2 =>
    intro x xs hx hxs y hy
    rcases List.mem_cons.mp hy with rfl | hmem
    · exact hx
    · exact hxs y hmem
  case refine_3 => intro p hp; cases hp
  case refine_4 =>
    intro p ps hp hps q hq
    rcases List.mem_cons.mp hq with rfl | hmem
    · exact hp
    · exact hps q hmem
  case refine_5 => intro k w hw; exact hw

/-! ## Association-list and well-formedness lemmas -/

theorem lookupField_mem {fs : List (String × Value)} {k : String} {v : Value}
    (h : lookupField fs k = some v) : (k, v) ∈ fs := by
  induction fs with
  | nil => simp [lookupField] at h
  | cons p rest ih =>
      obtain ⟨a, b⟩ := p
      by_cases hk : a = k
      · subst hk
        simp [lookupField] at h
        simp [h]
      · simp [lookupField, hk] at h
        exact List.mem_cons_of_mem _ (ih h)

theorem lookupField_none_iff {fs : List (String × Value)} {k : String} :
    lookupField fs k = none ↔ k ∉ fs.map Prod.fst := by
  induction fs with
  | nil => simp [lookupField]
  | cons p rest ih =>
      obtain ⟨a, b⟩ := p
      by_cases hk : a = k
      · subst hk; simp [lookupField]
      · simp [lookupField, hk, ih, Ne.symm hk]

theorem lookupField_isSome_iff {fs : List (String × Value)} {k : String} :
    (lookupField fs k).isSome = true ↔ k ∈ fs.map Prod.fst := by
  rcases h : lookupField fs k with _ | v
  · simpa [h] using lookupField_none_iff.mp h
  · simp [h]
    exact ⟨v, lookupField_mem h⟩

theorem lookupField_of_mem_nodup {fs : List (String × Value)}
    (hnd : (fs.map Prod.fst).Nodup) {k : String} {v : Value}
    (hm : (k, v) ∈ fs) : lookupField fs k = some v := by
  induction fs with
  | nil => cases hm
  | cons p rest ih =>
      obtain ⟨a, b⟩ := p
      simp only [List.map_cons, List.nodup_cons] at hnd
      rcases List.mem_cons.mp hm with heq | hmem
      · obtain ⟨rfl, rfl⟩ := Prod.mk.injEq .. ▸ heq
        simp [lookupField]
      · have hk : a ≠ k := by
          intro heq
          exact hnd.1 (heq ▸ List.mem_map.mpr ⟨(k, v), hmem, rfl⟩)
        simp [lookupField, hk]
        exact ih hnd.2 hmem

theorem nodupKeys_iff : ∀ l : List String, nodupKeys l = true ↔ l.Nodup := by
  intro l
  induction l with
  | nil => simp [nodupKeys]
  | cons k ks ih => simp [nodupKeys, ih, List.nodup_cons, List.elem_iff]

theorem wf_obj_iff {fs : List (String × Value)} :
    wf (.vobj fs) = true ↔ (fs.map Prod.fst).Nodup ∧ wfFields fs = true := by
  simp [wf, Bool.and_eq_true, nodupKeys_iff]

theorem wfFields_iff {fs : List (String × Value)} :
    wfFields fs = true ↔ ∀ p ∈ fs, wf p.2 = true := by
  induction fs with
  | nil => simp [wfFields]
  | cons p rest ih => obtain ⟨a, b⟩ := p; simp [wfFields, ih]

theorem wfList_iff {xs : List Value} :
    wfList xs = true ↔ ∀ x ∈ xs, wf x = true := by
  induction xs with
  | nil => simp [wfList]
  | cons x rest ih => simp [wfList, ih]

theorem undefFreeFields_iff {fs : List (String × Value)} :
    undefFreeFields fs = true ↔ ∀ p ∈ fs, undefFree p.2 = true := by
  induction fs with
  | nil => simp [undefFreeFields]
  | cons p rest ih => obtain ⟨a, b⟩ := p; simp [undefFreeFields, ih]

/-! ## `deepClone` computes the identity on value trees -/

theorem deepCloneList_eq {xs : List Value} (h : ∀ x ∈ xs, deepClone x = x) :
    deepCloneList xs = xs := by
  induction xs with
  | nil => rfl
  | cons x rest ih =>
      simp only [deepCloneList]
      rw [h x (List.mem_cons_self x rest), ih (fun y hy => h y (List.mem_cons_of_mem _ hy))]

theorem deepCloneFields_eq {fs : List (String × Value)} (h : ∀ p ∈ fs, deepClone p.2 = p.2) :
    deepCloneFields fs = fs := by
  induction fs with
  | nil => rfl
  | cons p rest ih =>
      obtain ⟨a, b⟩ := p
      simp only [deepCloneFields]
      rw [h (a, b) (List.mem_cons_self _ rest), ih (fun q hq => h q (List.mem_cons_of_mem _ hq))]

/-- On value trees the source's `deepClone` is the identity: every branch
rebuilds the same structure (heap freshness is treated in the heap model). -/
theorem deepClone_eq_self : ∀ v : Value, deepClone v = v := by
  refine value_ind _ rfl rfl (fun b => rfl) (fun n => rfl) (fun s => rfl) (fun t => rfl) ?_ ?_
  · intro xs ih
    simp only [deepClone]
    rw [deepCloneList_eq ih]
  · intro fs ih
    simp only [deepClone]
    rw [deepCloneFields_eq ih]

/-! ## `isEqual` characterisations and reflexivity -/

theorem isEqualFields_iff {rest fb : List (String × Value)} :
    isEqualFields rest fb = true ↔
      ∀ k v, (k, v) ∈ rest → ∃ w, lookupField fb k = some w ∧ isEqual v w = true := by
  induction rest with
  | nil => simp [isEqualFields]
  | cons p r ih =>
      obtain ⟨k, v⟩ := p
      constructor
      · intro h
        simp only [isEqualFields, Bool.and_eq_true] at h
        obtain ⟨h1, h2⟩ := h
        intro k2 v2 hm
        rcases List.mem_cons.mp hm with heq | hmem
        · obtain ⟨rfl, rfl⟩ := Prod.mk.injEq .. ▸ heq
          rcases hw : lookupField fb k2 with _ | w
          · rw [hw] at h1; cases h1
          · rw [hw] at h1; exact ⟨w, rfl, h1⟩
        · exact (ih.mp h2) k2 v2 hmem
      · intro hall
        simp only [isEqualFields, Bool.and_eq_true]
        constructor
        · obtain ⟨w, hw, he⟩ := hall k v (List.mem_cons_self _ _)
          rw [hw]
          exact he
        · exact ih.mpr (fun k2 v2 hm => hall k2 v2 (List.mem_cons_of_mem _ hm))

theorem isEqualList_iff {xs ys : List Value} (hlen : xs.length = ys.length) :
    isEqualList xs ys = true ↔ List.Forall₂ (fun a b => isEqual a b = true) xs ys := by
  induction xs generalizing ys with
  | nil =>
      cases ys with
      | nil => simp [isEqualList]
      | cons y ys => simp at hlen
  | cons x xs ih =>
      cases ys with
      | nil => simp at hlen
      | cons y ys =>
          simp only [isEqualList, Bool.and_eq_true, List.forall₂_cons]
          rw [ih (by simpa using hlen)]

theorem isEqualList_refl {xs : List Value} (h : ∀ x ∈ xs, isEqual x x = true) :
    isEqualList xs xs = true := by
  induction xs with
  | nil => rfl
  | cons x rest ih =>
      simp only [isEqualList, Bool.and_eq_true]
      exact ⟨h x (List.mem_cons_self x rest), ih (fun y hy => h y (List.mem_cons_of_mem _ hy))⟩

/-- `isEqual` is reflexive on well-formed values. -/
theorem isEqual_refl : ∀ a : Value, wf a = true → isEqual a a = true := by
  refine value_ind _ ?_ ?_ ?_ ?_ ?_ ?_ ?_ ?_
  · intro _; simp [isEqual, jsStrictEq]
  · intro _; simp [isEqual, jsStrictEq]
  · intro b _; simp [isEqual, jsStrictEq]
  · intro n _; simp [isEqual, jsStrictEq]
  · intro s _; simp [isEqual, jsStrictEq]
  · intro t _; simp [isEqual, jsStrictEq]
  · intro xs ih hwf
    have hxs : ∀ x ∈ xs, wf x = true := by
      simpa [wf, wfList_iff] using hwf
    have hl : isEqualList xs xs = true :=
      isEqualList_refl (fun x hx => ih x hx (hxs x hx))
    simp [isEqual, jsStrictEq, hl]
  · intro fs ih hwf
    obtain ⟨hnd, hfs⟩ := wf_obj_iff.mp hwf
    have hf : isEqualFields fs fs = true := by
      refine isEqualFields_iff.mpr ?_
      intro k v hm
      exact ⟨v, lookupField_of_mem_nodup hnd hm,
        ih (k, v) hm (wfFields_iff.mp hfs (k, v) hm)⟩
    simp [isEqual, jsStrictEq, hf]

/-! ## Claim C1 (code bug): `deepMerge` loses a mapping-valued source key
that is missing from the target -/

/-- C1: the claim says a key present only in the source with a
keyed-mapping value ends up equal to the source's value.  The code instead
stores `undefined` there: `deepMerge({}, {a: {x: 1}})` evaluates to
`{a: undefined}`, because the recursive call
`deepMerge(target['a'], source['a'])` short-circuits on the non-object
`target['a']` and returns `deepClone(undefined)`, overwriting the fresh
`{}` stored one line earlier (a dead store). -/
theorem deepMerge_missing_key_mapping_becomes_undefined :
    deepMerge (.vobj []) (.vobj [("a", .vobj [("x", .vnum 1)])])
      = .vobj [("a", .vundef)] ∧
    deepMerge (.vobj []) (.vobj [("a", .vobj [("x", .vnum 1)])])
      ≠ .vobj [("a", .vobj [("x", .vnum 1)])] ∧
    deepMerge (.vobj [("a", .vnum 5)]) (.vobj [("a", .vobj [("x", .vnum 1)])])
      = .vobj [("a", .vnum 5)] := by
  refine ⟨by decide, by decide, by decide⟩

/-! ## Claim C10: a caller-supplied depth of 0 flattens without limit -/

/-- C10: `depth = depth || Infinity` turns the falsy depth `0` into
`Infinity`, so `flatten(data, 0)` equals unlimited-depth `flatten(data)`
and in particular fully flattens instead of returning `[data]`. -/
theorem flatten_depth_zero_is_unlimited :
    (∀ data : Value, flatten data (some 0) = flatten data none) ∧
    flatten (.varr [.vnum 1, .varr [.vnum 2, .vnum 3]]) (some 0)
      = [.vnum 1, .vnum 2, .vnum 3] ∧
    flatten (.varr [.vnum 1, .varr [.vnum 2, .vnum 3]]) (some 0)
      ≠ [.varr [.vnum 1, .varr [.vnum 2, .vnum 3]]] := by
  refine ⟨fun data => rfl, by decide, by decide⟩

/-! ## Claim C4: a deep clone is structurally equal to its input -/

/-- C4: `isEqual(deepClone(v), v)` holds for every (well-formed) Value. -/
theorem isEqual_deepClone (v : Value) (h : wf v = true) :
    isEqual (deepClone v) v = true := by
  rw [deepClone_eq_self]
  exact isEqual_refl v h

/-- Witness for C4 at a concrete nested value. -/
theorem isEqual_deepClone_witness :
    wf (.vobj [("a", .varr [.vnum 1, .vstr "x"]), ("d", .vdate 99),
               ("o", .vobj [("b", .vnull)])]) = true ∧
    isEqual
      (deepClone (.vobj [("a", .varr [.vnum 1, .vstr "x"]), ("d", .vdate 99),
                         ("o", .vobj [("b", .vnull)])]))
      (.vobj [("a", .varr [.vnum 1, .vstr "x"]), ("d", .vdate 99),
              ("o", .vobj [("b", .vnull)])]) = true :=
  ⟨by decide, isEqual_deepClone _ (by decide)⟩

/-! ## Claim C3: `isEqual` is an equivalence-like structural comparison -/

theorem isEqual_obj_unfold {fa fb : List (String × Value)} :
    isEqual (.vobj fa) (.vobj fb) = ((fa.length == fb.length) && isEqualFields fa fb) := rfl

theorem isEqual_arr_unfold {xs ys : List Value} :
    isEqual (.varr xs) (.varr ys) = ((xs.length == ys.length) && isEqualList xs ys) := rfl

theorem keys_subset_of_isEqualFields {fa fb : List (String × Value)}
    (h : isEqualFields fa fb = true) : fa.map Prod.fst ⊆ fb.map Prod.fst := by
  intro k hk
  obtain ⟨⟨k0, v⟩, hm, hkk⟩ := List.mem_map.mp hk
  dsimp at hkk
  subst hkk
  obtain ⟨w, hw, _⟩ := isEqualFields_iff.mp h k0 v hm
  exact List.mem_map.mpr ⟨(k0, w), lookupField_mem hw, rfl⟩

theorem keys_perm_of_isEqualFields {fa fb : List (String × Value)}
    (hnda : (fa.map Prod.fst).Nodup)
    (hlen : fa.length = fb.length) (h : isEqualFields fa fb = true) :
    List.Perm (fa.map Prod.fst) (fb.map Prod.fst) := by
  have hsp := List.subperm_of_subset hnda (keys_subset_of_isEqualFields h)
  exact hsp.perm_of_length_le (by simp [hlen])

theorem isEqualList_symm_aux :
    ∀ xs ys : List Value,
      (∀ x ∈ xs, wf x = true → ∀ b, wf b = true → isEqual x b = true → isEqual b x = true) →
      (∀ x ∈ xs, wf x = true) → (∀ y ∈ ys, wf y = true) →
      xs.length = ys.length →
      isEqualList xs ys = true → isEqualList ys xs = true := by
  intro xs
  induction xs with
  | nil =>
      intro ys _ _ _ hlen _
      cases ys with
      | nil => rfl
      | cons y ys => simp at hlen
  | cons x xs ih =>
      intro ys hih hwx hwy hlen h
      cases ys with
      | nil => simp at hlen
      | cons y ys =>
          simp only [isEqualList, Bool.and_eq_true] at h ⊢
          obtain ⟨h1, h2⟩ := h
          refine ⟨hih x (by simp) (hwx x (by simp)) y (hwy y (by simp)) h1, ?_⟩
          exact ih ys (fun z hz => hih z (List.mem_cons_of_mem _ hz))
            (fun z hz => hwx z (List.mem_cons_of_mem _ hz))
            (fun z hz => hwy z (List.mem_cons_of_mem _ hz))
            (by simpa using hlen) h2

theorem isEqual_symm_mp : ∀ a : Value, wf a = true →
    ∀ b, wf b = true → isEqual a b = true → isEqual b a = true := by
  refine value_ind _ ?_ ?_ ?_ ?_ ?_ ?_ ?_ ?_
  · intro _ b hb h
    cases b <;> simp [isEqual, jsStrictEq] at h ⊢
  · intro _ b hb h
    cases b <;> simp [isEqual, jsStrictEq] at h ⊢
  · intro c _ b hb h
    cases b <;> simp [isEqual, jsStrictEq] at h ⊢ <;> exact h.symm
  · intro n _ b hb h
    cases b <;> simp [isEqual, jsStrictEq] at h ⊢ <;> exact h.symm
  · intro s _ b hb h
    cases b <;> simp [isEqual, jsStrictEq] at h ⊢ <;> exact h.symm
  · intro t _ b hb h
    cases b <;> simp [isEqual, jsStrictEq] at h ⊢ <;> first | exact h.symm | exact h
  · intro xs ih hwf b hb h
    cases b <;> simp [isEqual, jsStrictEq] at h ⊢
    rename_i ys
    obtain ⟨hlen, hl⟩ := h
    have hxs : ∀ x ∈ xs, wf x = true := by simpa [wf, wfList_iff] using hwf
    have hys : ∀ y ∈ ys, wf y = true := by simpa [wf, wfList_iff] using hb
    exact ⟨hlen.symm, isEqualList_symm_aux xs ys (fun x hx => ih x hx) hxs hys hlen hl⟩
  · intro fa ih hwf b hb h
    cases b <;> simp [isEqual, jsStrictEq] at h ⊢
    case vdate => exact h
    case vobj =>
      rename_i fb
      obtain ⟨hnda, hwfa⟩ := wf_obj_iff.mp hwf
      obtain ⟨hndb, hwfb⟩ := wf_obj_iff.mp hb
      obtain ⟨hlen, hfield⟩ := h
      have hperm := keys_perm_of_isEqualFields hnda hlen hfield
      refine ⟨hlen.symm, isEqualFields_iff.mpr ?_⟩
      intro k w hm
      have hka : k ∈ fa.map Prod.fst :=
        hperm.mem_iff.mpr (List.mem_map.mpr ⟨(k, w), hm, rfl⟩)
      obtain ⟨⟨k2, v⟩, hma, hk2⟩ := List.mem_map.mp hka
      dsimp at hk2
      subst hk2
      obtain ⟨w2, hwb, hvw⟩ := isEqualFields_iff.mp hfield k2 v hma
      have hwb2 : lookupField fb k2 = some w := lookupField_of_mem_nodup hndb hm
      rw [hwb2] at hwb
      injection hwb with hww
      subst hww
      exact ⟨v, lookupField_of_mem_nodup hnda hma,
        ih (k2, v) hma (wfFields_iff.mp hwfa _ hma) w (wfFields_iff.mp hwfb _ hm) hvw⟩

theorem isEqual_symm (a b : Value) (ha : wf a = true) (hb : wf b = true) :
    isEqual a b = isEqual b a := by
  rcases h : isEqual a b with _ | _
  · rcases h2 : isEqual b a with _ | _
    · rfl
    · have := isEqual_symm_mp b hb a ha h2
      rw [h] at this
      cases this
  · exact (isEqual_symm_mp a ha b hb h).symm

theorem isEqual_obj_iff {fa fb : List (String × Value)}
    (ha : wf (.vobj fa) = true) (hb : wf (.vobj fb) = true) :
    isEqual (.vobj fa) (.vobj fb) = true ↔
      ((∀ k, k ∈ fa.map Prod.fst ↔ k ∈ fb.map Prod.fst) ∧
       ∀ k v w, lookupField fa k = some v → lookupField fb k = some w →
         isEqual v w = true) := by
  obtain ⟨hnda, _⟩ := wf_obj_iff.mp ha
  obtain ⟨hndb, _⟩ := wf_obj_iff.mp hb
  constructor
  · intro h
    rw [isEqual_obj_unfold] at h
    simp only [Bool.and_eq_true, beq_iff_eq] at h
    obtain ⟨hlen2, hfield⟩ := h
    have hperm := keys_perm_of_isEqualFields hnda hlen2 hfield
    refine ⟨fun k => hperm.mem_iff, ?_⟩
    intro k v w hv hw
    obtain ⟨w2, hw2, hvw⟩ := isEqualFields_iff.mp hfield k v (lookupField_mem hv)
    rw [hw] at hw2
    injection hw2 with hww
    subst hww
    exact hvw
  · intro ⟨hkeys, hvals⟩
    have hperm : List.Perm (fa.map Prod.fst) (fb.map Prod.fst) :=
      (List.perm_ext_iff_of_nodup hnda hndb).mpr hkeys
    have hlen : fa.length = fb.length := by
      have := hperm.length_eq
      simpa using this
    rw [isEqual_obj_unfold]
    simp only [Bool.and_eq_true, beq_iff_eq]
    refine ⟨hlen, isEqualFields_iff.mpr ?_⟩
    intro k v hm
    have hkb : k ∈ fb.map Prod.fst :=
      (hkeys k).mp (List.mem_map.mpr ⟨(k, v), hm, rfl⟩)
    have hsome : (lookupField fb k).isSome = true := lookupField_isSome_iff.mpr hkb
    rcases hw : lookupField fb k with _ | w
    · rw [hw] at hsome; cases hsome
    · exact ⟨w, rfl, hvals k v w (lookupField_of_mem_nodup hnda hm) hw⟩

theorem isEqual_arr_iff {xs ys : List Value} :
    isEqual (.varr xs) (.varr ys) = true ↔
      xs.length = ys.length ∧ List.Forall₂ (fun a b => isEqual a b = true) xs ys := by
  rw [isEqual_arr_unfold]
  simp only [Bool.and_eq_true, beq_iff_eq]
  constructor
  · intro h
    exact ⟨h.1, (isEqualList_iff h.1).mp h.2⟩
  · intro h
    exact ⟨h.1, (isEqualList_iff h.1).mpr h.2⟩

/-- C3: structural equality is reflexive and symmetric (on well-formed
values); two keyed mappings are equal exactly when they have identical key
sets and recursively equal values at every common key; two sequences are
equal exactly when they have the same length and pairwise recursively equal
elements; a sequence and a keyed mapping are never equal. -/
theorem isEqual_equivalence_and_structure :
    (∀ a : Value, wf a = true → isEqual a a = true) ∧
    (∀ a b : Value, wf a = true → wf b = true → isEqual a b = isEqual b a) ∧
    (∀ fa fb : List (String × Value), wf (.vobj fa) = true → wf (.vobj fb) = true →
      (isEqual (.vobj fa) (.vobj fb) = true ↔
        ((∀ k, k ∈ fa.map Prod.fst ↔ k ∈ fb.map Prod.fst) ∧
         ∀ k v w, lookupField fa k = some v → lookupField fb k = some w →
           isEqual v w = true))) ∧
    (∀ xs ys : List Value,
      isEqual (.varr xs) (.varr ys) = true ↔
        xs.length = ys.length ∧ List.Forall₂ (fun a b => isEqual a b = true) xs ys) ∧
    (∀ (xs : List Value) (fs : List (String × Value)),
      isEqual (.varr xs) (.vobj fs) = false ∧ isEqual (.vobj fs) (.varr xs) = false) :=
  ⟨isEqual_refl, isEqual_symm, fun _ _ => isEqual_obj_iff, fun _ _ => isEqual_arr_iff,
    fun _ _ => ⟨rfl, rfl⟩⟩

/-- Witness for C3 at concrete values: reflexivity at a nested mapping and
symmetry at a pair of distinct mappings. -/
theorem isEqual_equivalence_and_structure_witness :
    (wf (.vobj [("a", .varr [.vnum 1])]) = true ∧
      isEqual (.vobj [("a", .varr [.vnum 1])]) (.vobj [("a", .varr [.vnum 1])]) = true) ∧
    isEqual (.vobj [("a", .vnum 1), ("b", .vnum 2)]) (.vobj [("b", .vnum 2), ("a", .vnum 1)])
      = isEqual (.vobj [("b", .vnum 2), ("a", .vnum 1)]) (.vobj [("a", .vnum 1), ("b", .vnum 2)]) :=
  ⟨⟨by decide, isEqual_equivalence_and_structure.1 _ (by decide)⟩,
    isEqual_equivalence_and_structure.2.1 _ _ (by decide) (by decide)⟩

/-! ## Claim C8: `get` with dot paths and defaults -/

theorem splitChGo_ne_nil (sep : Char) : ∀ (l acc : List Char), splitChGo sep l acc ≠ [] := by
  intro l
  induction l with
  | nil => intro acc; simp [splitChGo]
  | cons c cs ih =>
      intro acc
      by_cases h : c = sep <;> simp [splitChGo, h]
      exact ih (c :: acc)

theorem jsSplit_ne_nil (sep : Char) (s : String) : jsSplit sep s ≠ [] :=
  splitChGo_ne_nil sep s.data []

theorem getPath_vundef : ∀ (ks : List String) (d : Value), getPath .vundef ks d = d := by
  intro ks d
  cases ks with
  | nil => rfl
  | cons k ks => rfl

theorem undefFree_lookup {m : List (String × Value)} {k : String} {v : Value}
    (h : undefFree (.vobj m) = true) (hl : lookupField m k = some v) :
    undefFree v = true := by
  have hm := lookupField_mem hl
  have : undefFreeFields m = true := by simpa [undefFree] using h
  exact undefFreeFields_iff.mp this (k, v) hm

theorem getPath_storedAt :
    ∀ (segs : List String) (obj d : Value),
      undefFree obj = true → mappingChain obj segs = true →
      (∀ v, storedAt obj segs = some v → getPath obj segs d = v) ∧
      (storedAt obj segs = none → getPath obj segs d = d) := by
  intro segs
  induction segs with
  | nil =>
      intro obj d hu _
      constructor
      · intro v hv
        simp only [storedAt, Option.some.injEq] at hv
        subst hv
        have : isUndef obj = false := by
          cases obj <;> simp [isUndef] <;> simp [undefFree] at hu
        simp [getPath, this]
      · intro hv
        simp [storedAt] at hv
  | cons k ks ih =>
      intro obj d hu hc
      cases obj <;> simp [mappingChain] at hc
      rename_i m
      rcases hl : lookupField m k with _ | v
      · rw [hl] at hc
        constructor
        · intro v hv
          simp only [storedAt, hl] at hv
          exact Option.noConfusion hv
        · intro _
          simp only [getPath, isNullOrUndef, getProp, hl, Option.getD]
          exact getPath_vundef ks d
      · rw [hl] at hc
        have hv := undefFree_lookup hu hl
        have hrec := ih v d hv hc
        constructor
        · intro w hw
          simp only [storedAt, hl] at hw
          simp only [getPath, isNullOrUndef, getProp, hl, Option.getD]
          exact hrec.1 w hw
        · intro hw
          simp only [storedAt, hl] at hw
          simp only [getPath, isNullOrUndef, getProp, hl, Option.getD]
          exact hrec.2 hw

/-- C8: `get(obj, path, d)` returns `d` whenever `obj` is not a keyed
mapping; along a traversal that stays within keyed mappings (the spec's
reading of dot paths, undefined-free data), it returns `d` exactly when some
segment is absent and otherwise the value stored at the path; and the spec
scenario `get({user:{name:'Sam'}}, 'user.age', 0) = 0` holds. -/
theorem get_path_semantics :
    (∀ (obj : Value) (p : String) (d : Value), (∀ m, obj ≠ .vobj m) → get obj p d = d) ∧
    (∀ (obj : Value) (p : String) (d : Value),
      undefFree obj = true → mappingChain obj (jsSplit '.' p) = true →
      ((∀ v, storedAt obj (jsSplit '.' p) = some v → get obj p d = v) ∧
       (storedAt obj (jsSplit '.' p) = none → get obj p d = d))) ∧
    get (.vobj [("user", .vobj [("name", .vstr "Sam")])]) "user.age" (.vnum 0) = .vnum 0 := by
  refine ⟨?_, ?_, by decide⟩
  · intro obj p d hobj
    cases obj <;> simp [get, isObject]
    · rename_i t
      rcases hsp : jsSplit '.' p with _ | ⟨k, ks⟩
      · exact absurd hsp (jsSplit_ne_nil '.' p)
      · simp only [getPath, isNullOrUndef, getProp]
        exact getPath_vundef ks d
    · exact absurd rfl (hobj _)
  · intro obj p d hu hc
    rcases hsp : jsSplit '.' p with _ | ⟨k, ks⟩
    · exact absurd hsp (jsSplit_ne_nil '.' p)
    · rw [hsp] at hc
      have hobj : ∃ m, obj = .vobj m := by
        cases obj <;> simp [mappingChain] at hc <;> exact ⟨_, rfl⟩
      obtain ⟨m, rfl⟩ := hobj
      have := getPath_storedAt (k :: ks) (.vobj m) d hu hc
      constructor
      · intro v hv
        simpa [get, isObject, hsp] using this.1 v hv
      · intro hv
        simpa [get, isObject, hsp] using this.2 hv

/-- Witness for C8: a present path, a missing path, and a non-mapping
input, each at concrete values. -/
theorem get_path_semantics_witness :
    get (.vnum 7) "x" (.vstr "d") = .vstr "d" ∧
    (undefFree (.vobj [("a", .vobj [("b", .vnum 5)])]) = true ∧
      get (.vobj [("a", .vobj [("b", .vnum 5)])]) "a.b" (.vnum 0) = .vnum 5) ∧
    get (.vobj [("a", .vobj [("b", .vnum 5)])]) "a.c" (.vnum 0) = .vnum 0 :=
  ⟨get_path_semantics.1 (.vnum 7) "x" _ (fun m => by simp),
   ⟨by decide,
    (get_path_semantics.2.1 _ "a.b" _ (by decide) (by decide)).1 _ (by decide)⟩,
   (get_path_semantics.2.1 _ "a.c" _ (by decide) (by decide)).2 (by decide)⟩

/-! ## Claim C2: `set` and intermediate segments -/

theorem lookupField_setFieldList_self :
    ∀ (m : List (String × Value)) (k : String) (v : Value),
      lookupField (setFieldList m k v) k = some v := by
  intro m k v
  induction m with
  | nil => simp [setFieldList, lookupField]
  | cons p rest ih =>
      obtain ⟨a, b⟩ := p
      by_cases h : a = k
      · subst h
        simp [setFieldList, lookupField]
      · simp [setFieldList, lookupField, h, ih]

/-- C2 counterexample: at `obj = {a: 5}`, `path = 'a.b'`, `x = 7` the claim
asserts the truthy non-mapping intermediate `5` is overwritten with a fresh
mapping and `7` is stored at the path.  Under `'use strict'` the code
instead throws a TypeError (`5` fails the `!current[k]` test, so no fresh
mapping is created, and the final assignment targets the primitive `5`),
and the object is left unchanged. -/
theorem set_truthy_primitive_intermediate_throws :
    set (.vobj [("a", .vnum 5)]) "a.b" (.vnum 7)
      = .error ⟨.typeError, "Cannot create property on a primitive value"⟩ := by
  decide

theorem setGo_stores :
    ∀ segs : List String, segs ≠ [] → ∀ cur x : Value,
      setSafe cur segs = true →
      ∃ r, setGo cur segs x = .ok r ∧ storedAt r segs = some x := by
  intro segs
  induction segs with
  | nil => intro h; exact absurd rfl h
  | cons k ks ih =>
      intro _ cur x hsafe
      cases ks with
      | nil =>
          cases cur <;> simp [setSafe] at hsafe
          rename_i m
          refine ⟨.vobj (setFieldList m k x), rfl, ?_⟩
          simp [storedAt, lookupField_setFieldList_self]
      | cons k2 ks2 =>
          cases cur <;> simp [setSafe] at hsafe
          rename_i m
          by_cases ht : truthy ((lookupField m k).getD .vundef)
          · rw [if_pos ht] at hsafe
            obtain ⟨r2, hr2, hst⟩ := ih (by simp) ((lookupField m k).getD .vundef) x hsafe
            refine ⟨.vobj (setFieldList m k r2), ?_, ?_⟩
            · simp [setGo, isNullOrUndef, getProp, ht, hr2, setProp]
            · simp [storedAt, lookupField_setFieldList_self, hst]
          · rw [if_neg ht] at hsafe
            obtain ⟨r2, hr2, hst⟩ := ih (by simp) (.vobj []) x hsafe
            refine ⟨.vobj (setFieldList (setFieldList m k (.vobj [])) k r2), ?_, ?_⟩
            · simp [setGo, isNullOrUndef, getProp, ht, setProp,
                lookupField_setFieldList_self, hr2]
            · simp [storedAt, lookupField_setFieldList_self, hst]

/-- C2 amended: `set` creates a fresh empty mapping only at absent or
falsy intermediate segments (the guard is `if (!current[k])`): whenever
every traversed intermediate segment holds a keyed mapping, an absent key,
or a falsy value, the call succeeds and the value stored at the path equals
`x` (first conjunct).  A truthy non-mapping intermediate is never
overwritten with a fresh mapping, and what happens instead depends on its
kind: a truthy primitive makes the subsequent strict-mode property write
throw a TypeError (see the counterexample), while an array or date
intermediate accepts the write as an expando property on that object, so
the call does not throw (second and third conjuncts; the expando itself
lies outside the keyed-mapping model, so only success is asserted). -/
theorem set_stores_at_path_when_traversal_safe :
    (∀ (m : List (String × Value)) (p : String) (x : Value),
      setSafe (.vobj m) (jsSplit '.' p) = true →
      ∃ r, set (.vobj m) p x = .ok r ∧ storedAt r (jsSplit '.' p) = some x) ∧
    (∃ r, set (.vobj [("a", .varr [.vnum 1])]) "a.b" (.vnum 7) = .ok r) ∧
    (∃ r, set (.vobj [("d", .vdate 0)]) "d.b" (.vnum 7) = .ok r) := by
  refine ⟨?_, ⟨.vobj [("a", .varr [.vnum 1])], by decide⟩,
    ⟨.vobj [("d", .vdate 0)], by decide⟩⟩
  intro m p x hsafe
  have h := setGo_stores (jsSplit '.' p) (jsSplit_ne_nil '.' p) (.vobj m) x hsafe
  simpa [set, isObject] using h

/-- Witness for C2's amended claim: a falsy intermediate (`{a: 0}`) is
overwritten and the write lands. -/
theorem set_stores_at_path_when_traversal_safe_witness :
    setSafe (.vobj [("a", .vnum 0)]) (jsSplit '.' "a.b") = true ∧
    (∃ r, set (.vobj [("a", .vnum 0)]) "a.b" (.vnum 7) = .ok r ∧
      storedAt r (jsSplit '.' "a.b") = some (.vnum 7)) :=
  ⟨by decide, set_stores_at_path_when_traversal_safe.1 _ "a.b" _ (by decide)⟩

/-! ## Claim C7: validation failures of the array-only operations, and
`groupBy`'s grouping -/

theorem charListLt_asymm : ∀ a b : List Char, charListLt a b = true → charListLt b a = false := by
  intro a
  induction a with
  | nil =>
      intro b h
      cases b with
      | nil => simp [charListLt] at h
      | cons d ds => simp [charListLt]
  | cons c cs ih =>
      intro b h
      cases b with
      | nil => simp [charListLt] at h
      | cons d ds =>
          simp only [charListLt] at h ⊢
          by_cases h1 : c < d
          · have h2 : ¬ d < c := lt_asymm h1
            simp [h1, h2]
          · by_cases h2 : d < c
            · simp [h1, h2] at h
            · simp [h1, h2] at h ⊢
              exact ih ds h

theorem charListLt_trans :
    ∀ a b c : List Char, charListLt a b = true → charListLt b c = true →
      charListLt a c = true := by
  intro a
  induction a with
  | nil =>
      intro b c hab hbc
      cases c with
      | nil =>
          cases b with
          | nil => simp [charListLt] at hab
          | cons y ys => simp [charListLt] at hbc
      | cons z zs => simp [charListLt]
  | cons x xs ih =>
      intro b c hab hbc
      cases b with
      | nil => simp [charListLt] at hab
      | cons y ys =>
          cases c with
          | nil => simp [charListLt] at hbc
          | cons z zs =>
              simp only [charListLt] at hab hbc ⊢
              by_cases hxy : x < y
              · by_cases hyz : y < z
                · simp [lt_trans hxy hyz]
                · by_cases hzy : z < y
                  · simp [hyz, hzy] at hbc
                  · have hyzeq : y = z := le_antisymm (not_lt.mp hzy) (not_lt.mp hyz)
                    subst hyzeq
                    simp [hxy]
              · by_cases hyx : y < x
                · simp [hxy, hyx] at hab
                · have hxyeq : x = y := le_antisymm (not_lt.mp hyx) (not_lt.mp hxy)
                  subst hxyeq
                  simp only [lt_irrefl, if_false] at hab
                  by_cases hyz : x < z
                  · simp [hyz]
                  · by_cases hzy : z < x
                    · simp [hyz, hzy] at hbc
                    · simp [hyz, hzy] at hab hbc ⊢
                      exact ih ys zs hab hbc

theorem charListLt_eq_of_incomp :
    ∀ a b : List Char, charListLt a b = false → charListLt b a = false → a = b := by
  intro a
  induction a with
  | nil =>
      intro b h1 _
      cases b with
      | nil => rfl
      | cons d ds => simp [charListLt] at h1
  | cons c cs ih =>
      intro b h1 h2
      cases b with
      | nil => simp [charListLt] at h2
      | cons d ds =>
          simp only [charListLt] at h1 h2
          by_cases hcd : c < d
          · simp [hcd] at h1
          · by_cases hdc : d < c
            · simp [hdc, lt_asymm hdc] at h2
            · have : c = d := le_antisymm (not_lt.mp hdc) (not_lt.mp hcd)
              subst this
              simp [lt_irrefl] at h1 h2
              rw [ih ds h1 h2]

theorem numLtOpt_asymm (x y : Option Int)
    (h : numLtOpt x y = true) : numLtOpt y x = false := by
  rcases x with _ | a
  · rcases y with _ | b <;> simp [numLtOpt] at h
  · rcases y with _ | b
    · simp [numLtOpt] at h
    · simp only [numLtOpt, decide_eq_true_eq] at h
      simp only [numLtOpt, decide_eq_false_iff_not]
      omega

theorem isStrVal_iff {u : Value} : isStrVal u = true ↔ ∃ p, u = .vstr p := by
  cases u <;> simp [isStrVal]

theorem jsLt_str (p q : String) : jsLt (.vstr p) (.vstr q) = strLt p q := rfl

theorem jsLt_num (m n : Int) : jsLt (.vnum m) (.vnum n) = decide (m < n) := rfl

/-- When at least one side is not text, `jsLt` is the numeric comparison. -/
theorem jsLt_of_notstr (u v : Value)
    (h : isStrVal u = false ∨ isStrVal v = false) :
    jsLt u v = numLtOpt (toNumberOpt u) (toNumberOpt v) := by
  cases u <;> cases v <;> first
    | rfl
    | (simp [isStrVal] at h)

theorem jsLt_asymm (u v : Value) (h : jsLt u v = true) : jsLt v u = false := by
  by_cases hu : isStrVal u = true
  · by_cases hv : isStrVal v = true
    · obtain ⟨p, rfl⟩ := isStrVal_iff.mp hu
      obtain ⟨q, rfl⟩ := isStrVal_iff.mp hv
      rw [jsLt_str] at h ⊢
      exact charListLt_asymm _ _ h
    · have hv2 : isStrVal v = false := by simpa using hv
      rw [jsLt_of_notstr u v (Or.inr hv2)] at h
      rw [jsLt_of_notstr v u (Or.inl hv2)]
      exact numLtOpt_asymm _ _ h
  · have hu2 : isStrVal u = false := by simpa using hu
    rw [jsLt_of_notstr u v (Or.inl hu2)] at h
    rw [jsLt_of_notstr v u (Or.inr hu2)]
    exact numLtOpt_asymm _ _ h

theorem strLt_eq_of_incomp {p q : String}
    (h1 : strLt p q = false) (h2 : strLt q p = false) : p = q := by
  cases p
  cases q
  exact congrArg String.mk (charListLt_eq_of_incomp _ _ h1 h2)

theorem sameKind_symm {u v : Value} (h : sameKind u v) : sameKind v u := by
  rcases h with ⟨p, q, rfl, rfl⟩ | ⟨m, n, rfl, rfl⟩
  · exact Or.inl ⟨q, p, rfl, rfl⟩
  · exact Or.inr ⟨n, m, rfl, rfl⟩

theorem colCmp_neg (o : String) (u v : Value) : colCmp o u v = -(colCmp o v u) := by
  by_cases h1 : jsLt u v = true
  · have h2 := jsLt_asymm u v h1
    by_cases ho : o = "asc" <;> simp [colCmp, h1, h2, ho]
  · have h1f : jsLt u v = false := by simpa using h1
    by_cases h2 : jsLt v u = true
    · have h3 := jsLt_asymm v u h2
      by_cases ho : o = "asc" <;> simp [colCmp, h1f, h2, ho]
    · have h2f : jsLt v u = false := by simpa using h2
      simp [colCmp, h1f, h2f]

theorem colCmp_eq_zero {o : String} {u v : Value} (hk : sameKind u v)
    (h : colCmp o u v = 0) : u = v := by
  have h1 : jsLt u v = false ∧ jsLt v u = false := by
    by_cases ha : jsLt u v = true
    · by_cases ho : o = "asc" <;> simp [colCmp, ha, ho] at h
    · have haf : jsLt u v = false := by simpa using ha
      by_cases hb : jsLt v u = true
      · by_cases ho : o = "asc" <;> simp [colCmp, haf, hb, ho] at h
      · exact ⟨haf, by simpa using hb⟩
  rcases hk with ⟨p, q, rfl, rfl⟩ | ⟨m, n, rfl, rfl⟩
  · simp only [jsLt_str] at h1
    rw [strLt_eq_of_incomp h1.1 h1.2]
  · simp only [jsLt_num] at h1
    obtain ⟨e1, e2⟩ := h1
    simp at e1 e2
    rw [le_antisymm e2 e1]

theorem jsLt_trans_sameKind {u v w : Value}
    (h1 : sameKind u v) (h2 : sameKind v w)
    (ha : jsLt u v = true) (hb : jsLt v w = true) : jsLt u w = true := by
  rcases h1 with ⟨p, q, rfl, rfl⟩ | ⟨m, n, rfl, rfl⟩
  · rcases h2 with ⟨q2, r, he, rfl⟩ | ⟨m2, n2, he, _⟩
    · cases he
      rw [jsLt_str] at ha hb ⊢
      exact charListLt_trans _ _ _ ha hb
    · cases he
  · rcases h2 with ⟨q2, r, he, _⟩ | ⟨m2, n2, he, rfl⟩
    · cases he
    · cases he
      rw [jsLt_num] at ha hb ⊢
      simp at ha hb ⊢
      omega

theorem colCmp_lt_of_jsLt {o : String} {u v : Value} :
    colCmp o u v < 0 ↔
      (if o = "asc" then jsLt u v = true else jsLt v u = true) := by
  by_cases ha : jsLt u v = true
  · have haf := jsLt_asymm u v ha
    by_cases ho : o = "asc" <;> simp [colCmp, ha, haf, ho]
  · have haf : jsLt u v = false := by simpa using ha
    by_cases hb : jsLt v u = true
    · by_cases ho : o = "asc" <;> simp [colCmp, haf, hb, ho]
    · have hbf : jsLt v u = false := by simpa using hb
      simp [colCmp, haf, hbf]

theorem colCmp_lt_trans {o : String} {u v w : Value}
    (huv : sameKind u v) (hvw : sameKind v w)
    (h1 : colCmp o u v < 0) (h2 : colCmp o v w < 0) : colCmp o u w < 0 := by
  rw [colCmp_lt_of_jsLt] at h1 h2 ⊢
  by_cases ho : o = "asc"
  · rw [if_pos ho] at h1 h2 ⊢
    exact jsLt_trans_sameKind huv hvw h1 h2
  · rw [if_neg ho] at h1 h2 ⊢
    exact jsLt_trans_sameKind (sameKind_symm hvw) (sameKind_symm huv) h2 h1

theorem charListLt_irrefl : ∀ l : List Char, charListLt l l = false := by
  intro l
  induction l with
  | nil => rfl
  | cons c cs ih => simp [charListLt, lt_irrefl, ih]

theorem numLtOpt_irrefl : ∀ x : Option Int, numLtOpt x x = false := by
  intro x
  rcases x with _ | a
  · rfl
  · simp [numLtOpt]

theorem jsLt_irrefl : ∀ u : Value, jsLt u u = false := by
  have hn : ∀ v : Value, isStrVal v = false → jsLt v v = false := by
    intro v hv
    rw [jsLt_of_notstr v v (Or.inl hv)]
    exact numLtOpt_irrefl _
  intro u
  cases u <;> first
    | exact charListLt_irrefl _
    | exact hn _ rfl

theorem colCmp_self (o : String) (u : Value) : colCmp o u u = 0 := by
  simp [colCmp, jsLt_irrefl]

theorem colCmp_if (o : String) (A B : Value) (r : Int) :
    (if jsLt A B = true then (if o = "asc" then (-1 : Int) else 1)
     else if jsLt B A = true then (if o = "asc" then 1 else -1) else r)
      = (if colCmp o A B = 0 then r else colCmp o A B) := by
  by_cases h1 : jsLt A B = true
  · by_cases ho : o = "asc" <;> simp [colCmp, h1, ho]
  · have h1f : jsLt A B = false := by simpa using h1
    by_cases h2 : jsLt B A = true
    · by_cases ho : o = "asc" <;> simp [colCmp, h1f, h2, ho]
    · have h2f : jsLt B A = false := by simpa using h2
      simp [colCmp, h1f, h2f]

theorem cmpLoop_cons (k : String) (ks os : List String) (a b : Value) :
    cmpLoop (k :: ks) os a b =
      (if colCmp (hdOrder os) (lowerIfStr (getProp a k)) (lowerIfStr (getProp b k)) = 0
       then cmpLoop ks os.tail a b
       else colCmp (hdOrder os) (lowerIfStr (getProp a k)) (lowerIfStr (getProp b k))) := by
  cases os with
  | nil =>
      have h := colCmp_if "asc" (lowerIfStr (getProp a k)) (lowerIfStr (getProp b k))
        (cmpLoop ks [] a b)
      simpa [cmpLoop, hdOrder] using h
  | cons o0 os2 =>
      have h := colCmp_if (if o0 = "" then "asc" else o0) (lowerIfStr (getProp a k))
        (lowerIfStr (getProp b k)) (cmpLoop ks os2 a b)
      simpa [cmpLoop, hdOrder] using h

theorem cmpLoop_neg : ∀ (ks os : List String) (a b : Value),
    cmpLoop ks os a b = -(cmpLoop ks os b a) := by
  intro ks
  induction ks with
  | nil => intro os a b; simp [cmpLoop]
  | cons k ks ih =>
      intro os a b
      rw [cmpLoop_cons, cmpLoop_cons]
      rw [colCmp_neg (hdOrder os) (lowerIfStr (getProp b k)) (lowerIfStr (getProp a k))]
      by_cases h : colCmp (hdOrder os) (lowerIfStr (getProp a k)) (lowerIfStr (getProp b k)) = 0
      · simpa [h] using ih os.tail a b
      · simp [h, neg_eq_zero, neg_neg]

theorem cmpLoop_le_trans :
    ∀ (ks os : List String) (a b c : Value),
      (∀ k ∈ ks, sameKind (lowerIfStr (getProp a k)) (lowerIfStr (getProp b k)) ∧
         sameKind (lowerIfStr (getProp b k)) (lowerIfStr (getProp c k))) →
      cmpLoop ks os a b ≤ 0 → cmpLoop ks os b c ≤ 0 → cmpLoop ks os a c ≤ 0 := by
  intro ks
  induction ks with
  | nil => intro os a b c _ _ _; simp [cmpLoop]
  | cons k ks ih =>
      intro os a b c hk hab hbc
      obtain ⟨kab, kbc⟩ := hk k (List.mem_cons_self _ _)
      have hkrest : ∀ k2 ∈ ks,
          sameKind (lowerIfStr (getProp a k2)) (lowerIfStr (getProp b k2)) ∧
          sameKind (lowerIfStr (getProp b k2)) (lowerIfStr (getProp c k2)) :=
        fun k2 hk2 => hk k2 (List.mem_cons_of_mem _ hk2)
      rw [cmpLoop_cons] at hab hbc ⊢
      by_cases h1 : colCmp (hdOrder os) (lowerIfStr (getProp a k)) (lowerIfStr (getProp b k)) = 0
      · have hvv := colCmp_eq_zero kab h1
        rw [if_pos h1] at hab
        rw [hvv]
        by_cases h2 : colCmp (hdOrder os) (lowerIfStr (getProp b k)) (lowerIfStr (getProp c k)) = 0
        · rw [if_pos h2] at hbc
          rw [if_pos h2]
          exact ih os.tail a b c hkrest hab hbc
        · rw [if_neg h2] at hbc
          rw [if_neg h2]
          exact hbc
      · rw [if_neg h1] at hab
        have h1lt : colCmp (hdOrder os) (lowerIfStr (getProp a k)) (lowerIfStr (getProp b k)) < 0 :=
          lt_of_le_of_ne hab h1
        by_cases h2 : colCmp (hdOrder os) (lowerIfStr (getProp b k)) (lowerIfStr (getProp c k)) = 0
        · have hvv := colCmp_eq_zero kbc h2
          rw [← hvv]
          rw [if_neg h1]
          exact hab
        · rw [if_neg h2] at hbc
          have h2lt : colCmp (hdOrder os) (lowerIfStr (getProp b k)) (lowerIfStr (getProp c k)) < 0 :=
            lt_of_le_of_ne hbc h2
          have h3lt := colCmp_lt_trans kab kbc h1lt h2lt
          rw [if_neg (by omega : ¬ colCmp (hdOrder os) (lowerIfStr (getProp a k)) (lowerIfStr (getProp c k)) = 0)]
          omega

theorem cmpLoop_zero_elim {k : String} {ks os : List String} {a b : Value}
    (h : cmpLoop (k :: ks) os a b = 0) :
    colCmp (hdOrder os) (lowerIfStr (getProp a k)) (lowerIfStr (getProp b k)) = 0 ∧
      cmpLoop ks os.tail a b = 0 := by
  rw [cmpLoop_cons] at h
  by_cases h1 : colCmp (hdOrder os) (lowerIfStr (getProp a k)) (lowerIfStr (getProp b k)) = 0
  · rw [if_pos h1] at h
    exact ⟨h1, h⟩
  · rw [if_neg h1] at h
    exact absurd h h1

theorem cmpLoop_zero_trans :
    ∀ (ks os : List String) (x y z : Value),
      (∀ k ∈ ks, sameKind (lowerIfStr (getProp x k)) (lowerIfStr (getProp z k)) ∧
         sameKind (lowerIfStr (getProp y k)) (lowerIfStr (getProp z k))) →
      cmpLoop ks os x z = 0 → cmpLoop ks os y z = 0 → cmpLoop ks os x y = 0 := by
  intro ks
  induction ks with
  | nil => intro os x y z _ _ _; simp [cmpLoop]
  | cons k ks ih =>
      intro os x y z hk hxz hyz
      obtain ⟨kxz, kyz⟩ := hk k (List.mem_cons_self _ _)
      obtain ⟨h1, hrec1⟩ := cmpLoop_zero_elim hxz
      obtain ⟨h2, hrec2⟩ := cmpLoop_zero_elim hyz
      have e1 := colCmp_eq_zero kxz h1
      have e2 := colCmp_eq_zero kyz h2
      rw [cmpLoop_cons]
      have exy : lowerIfStr (getProp x k) = lowerIfStr (getProp y k) := by rw [e1, e2]
      rw [exy, colCmp_self, if_pos rfl]
      exact ih os.tail x y z
        (fun k2 hk2 => (hk k2 (List.mem_cons_of_mem _ hk2)))
        hrec1 hrec2

theorem sameKind_lower {u v : Value} (h : sameKind u v) :
    sameKind (lowerIfStr u) (lowerIfStr v) := by
  rcases h with ⟨p, q, rfl, rfl⟩ | ⟨m, n, rfl, rfl⟩
  · exact Or.inl ⟨jsToLower p, jsToLower q, rfl, rfl⟩
  · exact Or.inr ⟨m, n, rfl, rfl⟩

theorem sameKind_of_homog {keys : List String} {xs : List Value}
    (hh : homogKeys keys xs = true) {k : String} (hk : k ∈ keys)
    {a b : Value} (ha : a ∈ xs) (hb : b ∈ xs) :
    sameKind (getProp a k) (getProp b k) := by
  simp only [homogKeys, List.all_eq_true, Bool.or_eq_true] at hh
  rcases hh k hk with hstr | hnum
  · have hpa := hstr a ha
    have hpb := hstr b hb
    obtain ⟨p, hp⟩ := isStrVal_iff.mp hpa
    obtain ⟨q, hq⟩ := isStrVal_iff.mp hpb
    exact Or.inl ⟨p, q, hp, hq⟩
  · have hpa := hnum a ha
    have hpb := hnum b hb
    have hma : ∃ m, getProp a k = .vnum m := by
      cases hg : getProp a k <;> rw [hg] at hpa <;> simp [isNumVal] at hpa <;> exact ⟨_, rfl⟩
    have hmb : ∃ n, getProp b k = .vnum n := by
      cases hg : getProp b k <;> rw [hg] at hpb <;> simp [isNumVal] at hpb <;> exact ⟨_, rfl⟩
    obtain ⟨m, hm⟩ := hma
    obtain ⟨n, hn⟩ := hmb
    exact Or.inr ⟨m, n, hm, hn⟩

theorem colCmp_spec (o : String) (va vb : Value)
    (ho : o = "asc" ∨ o = "desc")
    (hk : sameKind va vb) :
    colCmp o (lowerIfStr va) (lowerIfStr vb)
      = (if o = "desc" then -(specCmpVal va vb) else specCmpVal va vb) := by
  have hAD : ("asc" : String) ≠ "desc" := by decide
  have hDA : ("desc" : String) ≠ "asc" := by decide
  rcases ho with rfl | rfl <;> rcases hk with ⟨p, q, rfl, rfl⟩ | ⟨m, n, rfl, rfl⟩
  · simp only [lowerIfStr, specCmpVal]
    by_cases h1 : strLt (jsToLower p) (jsToLower q) = true
    · have h2 : strLt (jsToLower q) (jsToLower p) = false := by
        have := jsLt_asymm (.vstr (jsToLower p)) (.vstr (jsToLower q)) (by rw [jsLt_str]; exact h1)
        rwa [jsLt_str] at this
      simp [colCmp, jsLt_str, h1, h2, hAD]
    · have h1f : strLt (jsToLower p) (jsToLower q) = false := by simpa using h1
      by_cases h2 : strLt (jsToLower q) (jsToLower p) = true
      · simp [colCmp, jsLt_str, h1f, h2, hAD]
      · have h2f : strLt (jsToLower q) (jsToLower p) = false := by simpa using h2
        simp [colCmp, jsLt_str, h1f, h2f, hAD]
  · simp only [lowerIfStr, specCmpVal]
    by_cases h1 : m < n
    · have hd1 : jsLt (.vnum m) (.vnum n) = true := by
        rw [jsLt_num]; exact decide_eq_true h1
      have hd2 : jsLt (.vnum n) (.vnum m) = false := by
        rw [jsLt_num]; exact decide_eq_false (by omega)
      simp [colCmp, hd1, hd2, h1, hAD]
    · by_cases h2 : n < m
      · have hd1 : jsLt (.vnum m) (.vnum n) = false := by
          rw [jsLt_num]; exact decide_eq_false (by omega)
        have hd2 : jsLt (.vnum n) (.vnum m) = true := by
          rw [jsLt_num]; exact decide_eq_true h2
        simp [colCmp, hd1, hd2, h1, h2, hAD]
      · have hd1 : jsLt (.vnum m) (.vnum n) = false := by
          rw [jsLt_num]; exact decide_eq_false (by omega)
        have hd2 : jsLt (.vnum n) (.vnum m) = false := by
          rw [jsLt_num]; exact decide_eq_false (by omega)
        simp [colCmp, hd1, hd2, h1, h2, hAD]
  · simp only [lowerIfStr, specCmpVal]
    by_cases h1 : strLt (jsToLower p) (jsToLower q) = true
    · have h2 : strLt (jsToLower q) (jsToLower p) = false := by
        have := jsLt_asymm (.vstr (jsToLower p)) (.vstr (jsToLower q)) (by rw [jsLt_str]; exact h1)
        rwa [jsLt_str] at this
      simp [colCmp, jsLt_str, h1, h2, hDA]
    · have h1f : strLt (jsToLower p) (jsToLower q) = false := by simpa using h1
      by_cases h2 : strLt (jsToLower q) (jsToLower p) = true
      · simp [colCmp, jsLt_str, h1f, h2, hDA]
      · have h2f : strLt (jsToLower q) (jsToLower p) = false := by simpa using h2
        simp [colCmp, jsLt_str, h1f, h2f, hDA]
  · simp only [lowerIfStr, specCmpVal]
    by_cases h1 : m < n
    · have hd1 : jsLt (.vnum m) (.vnum n) = true := by
        rw [jsLt_num]; exact decide_eq_true h1
      have hd2 : jsLt (.vnum n) (.vnum m) = false := by
        rw [jsLt_num]; exact decide_eq_false (by omega)
      simp [colCmp, hd1, hd2, h1, hDA]
    · by_cases h2 : n < m
      · have hd1 : jsLt (.vnum m) (.vnum n) = false := by
          rw [jsLt_num]; exact decide_eq_false (by omega)
        have hd2 : jsLt (.vnum n) (.vnum m) = true := by
          rw [jsLt_num]; exact decide_eq_true h2
        simp [colCmp, hd1, hd2, h1, h2, hDA]
      · have hd1 : jsLt (.vnum m) (.vnum n) = false := by
          rw [jsLt_num]; exact decide_eq_false (by omega)
        have hd2 : jsLt (.vnum n) (.vnum m) = false := by
          rw [jsLt_num]; exact decide_eq_false (by omega)
        simp [colCmp, hd1, hd2, h1, h2, hDA]

/-- Under per-key kind homogeneity and documented order arguments, the
source's comparator computes exactly the spec's multi-key comparison. -/
theorem cmpLoop_eq_specCmp :
    ∀ (ks os : List String) (a b : Value),
      validOrders os = true →
      (∀ k ∈ ks, sameKind (getProp a k) (getProp b k)) →
      cmpLoop ks os a b = specCmp ks os a b := by
  intro ks
  induction ks with
  | nil => intro os a b _ _; simp [cmpLoop, specCmp]
  | cons k ks ih =>
      intro os a b hvo hk
      have hkk := hk k (List.mem_cons_self _ _)
      have hkrest : ∀ k2 ∈ ks, sameKind (getProp a k2) (getProp b k2) :=
        fun k2 h2 => hk k2 (List.mem_cons_of_mem _ h2)
      rw [cmpLoop_cons]
      cases os with
      | nil =>
          have hb := colCmp_spec "asc" (getProp a k) (getProp b k) (Or.inl rfl) hkk
          have hAD : ¬ ("asc" : String) = "desc" := by decide
          rw [if_neg hAD] at hb
          simp only [hdOrder]
          rw [hb]
          simp only [specCmp, List.head?, List.tail]
          rw [ih [] a b rfl hkrest]
          simp [hAD]
      | cons o0 os2 =>
          have ho0 : o0 = "asc" ∨ o0 = "desc" := by
            simp only [validOrders, List.all_eq_true, Bool.or_eq_true, decide_eq_true_eq] at hvo
            exact hvo o0 (List.mem_cons_self _ _)
          have hvo2 : validOrders os2 = true := by
            simp only [validOrders, List.all_eq_true] at hvo ⊢
            exact fun o ho => hvo o (List.mem_cons_of_mem _ ho)
          have hne : o0 ≠ "" := by rcases ho0 with rfl | rfl <;> decide
          have hho : hdOrder (o0 :: os2) = o0 := by simp [hdOrder, hne]
          rw [hho]
          have hb := colCmp_spec o0 (getProp a k) (getProp b k) ho0 hkk
          rw [hb]
          simp only [specCmp, List.head?, List.tail]
          rw [ih os2 a b hvo2 hkrest]

/-! ## Claim C6: generic stable-insertion-sort lemmas -/

theorem insertCmp_perm {α : Type} (cmp : α → α → Int) (x : α) :
    ∀ l : List α, List.Perm (insertCmp cmp x l) (x :: l) := by
  intro l
  induction l with
  | nil => simp [insertCmp]
  | cons y ys ih =>
      by_cases h : cmp x y ≤ 0
      · rw [insertCmp, if_pos h]
      · rw [insertCmp, if_neg h]
        exact (ih.cons y).trans (List.Perm.swap x y ys)

theorem sortCmp_perm {α : Type} (cmp : α → α → Int) :
    ∀ l : List α, List.Perm (sortCmp cmp l) l := by
  intro l
  induction l with
  | nil => simp [sortCmp]
  | cons x xs ih =>
      rw [sortCmp]
      exact (insertCmp_perm cmp x (sortCmp cmp xs)).trans (ih.cons x)

theorem insertCmp_pairwise {α : Type} (cmp : α → α → Int) (x : α)
    (hneg : ∀ a b, cmp a b = -(cmp b a)) :
    ∀ l : List α,
      (∀ a b c, a ∈ x :: l → b ∈ x :: l → c ∈ x :: l →
        cmp a b ≤ 0 → cmp b c ≤ 0 → cmp a c ≤ 0) →
      List.Pairwise (fun a b => cmp a b ≤ 0) l →
      List.Pairwise (fun a b => cmp a b ≤ 0) (insertCmp cmp x l) := by
  intro l
  induction l with
  | nil => intro _ _; simp [insertCmp]
  | cons y ys ih =>
      intro htr hl
      obtain ⟨hy, hys⟩ := List.pairwise_cons.mp hl
      by_cases hxy : cmp x y ≤ 0
      · rw [insertCmp, if_pos hxy]
        refine List.pairwise_cons.mpr ⟨?_, hl⟩
        intro z hz
        rcases List.mem_cons.mp hz with rfl | hzys
        · exact hxy
        · exact htr x y z (by simp) (by simp) (by simp [hzys]) hxy (hy z hzys)
      · rw [insertCmp, if_neg hxy]
        refine List.pairwise_cons.mpr ⟨?_, ?_⟩
        · intro z hz
          have hz2 : z = x ∨ z ∈ ys := by
            simpa using (insertCmp_perm cmp x ys).mem_iff.mp hz
          rcases hz2 with rfl | hzys
          · have h2 := hneg y z
            have h3 : cmp z y > 0 := by omega
            omega
          · exact hy z hzys
        · refine ih ?_ hys
          intro a b c ha hb hc
          have hsub : ∀ w, w ∈ x :: ys → w ∈ x :: y :: ys := by
            intro w hw
            rcases List.mem_cons.mp hw with rfl | hw2
            · simp
            · simp [hw2]
          exact htr a b c (hsub a ha) (hsub b hb) (hsub c hc)

theorem sortCmp_pairwise {α : Type} (cmp : α → α → Int)
    (hneg : ∀ a b, cmp a b = -(cmp b a)) :
    ∀ l : List α,
      (∀ a b c, a ∈ l → b ∈ l → c ∈ l → cmp a b ≤ 0 → cmp b c ≤ 0 → cmp a c ≤ 0) →
      List.Pairwise (fun a b => cmp a b ≤ 0) (sortCmp cmp l) := by
  intro l
  induction l with
  | nil => intro _; simp [sortCmp]
  | cons x xs ih =>
      intro htr
      rw [sortCmp]
      have hmem : ∀ w, w ∈ x :: sortCmp cmp xs → w ∈ x :: xs := by
        intro w hw
        rcases List.mem_cons.mp hw with rfl | hw2
        · simp
        · simp [(sortCmp_perm cmp xs).mem_iff.mp hw2]
      refine insertCmp_pairwise cmp x hneg (sortCmp cmp xs) ?_ ?_
      · intro a b c ha hb hc
        exact htr a b c (hmem a ha) (hmem b hb) (hmem c hc)
      · refine ih ?_
        intro a b c ha hb hc
        exact htr a b c (List.mem_cons_of_mem _ ha) (List.mem_cons_of_mem _ hb)
          (List.mem_cons_of_mem _ hc)

theorem insertCmp_filter_tie {α : Type} (cmp : α → α → Int) (z x : α) :
    ∀ l : List α,
      (∀ y ∈ l, cmp x z = 0 → cmp y z = 0 → cmp x y = 0) →
      (insertCmp cmp x l).filter (fun y => cmp y z == 0)
        = (if cmp x z == 0 then x :: l.filter (fun y => cmp y z == 0)
           else l.filter (fun y => cmp y z == 0)) := by
  intro l
  induction l with
  | nil =>
      intro _
      by_cases h : cmp x z == 0 <;> simp [insertCmp, List.filter, h]
  | cons y ys ih =>
      intro htie
      by_cases hxy : cmp x y ≤ 0
      · rw [insertCmp, if_pos hxy]
        by_cases h : cmp x z == 0 <;> simp [List.filter_cons, h]
      · rw [insertCmp, if_neg hxy]
        have hrest := ih (fun w hw => htie w (List.mem_cons_of_mem _ hw))
        by_cases h : cmp x z == 0
        · have hy : (cmp y z == 0) = false := by
            by_cases hyz : cmp y z = 0
            · have := htie y (List.mem_cons_self _ _) (by simpa using h) hyz
              omega
            · simpa using hyz
          rw [if_pos h] at hrest
          simp [List.filter_cons, hy, hrest, h]
        · have hf : (cmp x z == 0) = false := by simpa using h
          rw [if_neg (by simp [hf] : ¬ (cmp x z == 0) = true)] at hrest
          by_cases hy : (cmp y z == 0) = true <;>
            simp [List.filter_cons, hy, hrest, hf]

theorem sortCmp_filter_tie {α : Type} (cmp : α → α → Int) (z : α) :
    ∀ l : List α,
      (∀ x ∈ l, ∀ y ∈ l, cmp x z = 0 → cmp y z = 0 → cmp x y = 0) →
      (sortCmp cmp l).filter (fun y => cmp y z == 0)
        = l.filter (fun y => cmp y z == 0) := by
  intro l
  induction l with
  | nil => simp [sortCmp]
  | cons x xs ih =>
      intro htie
      rw [sortCmp]
      have hins := insertCmp_filter_tie cmp z x (sortCmp cmp xs) ?_
      · rw [hins]
        have hrec := ih (fun a ha b hb => htie a (List.mem_cons_of_mem _ ha)
          b (List.mem_cons_of_mem _ hb))
        by_cases h : cmp x z == 0
        · rw [if_pos h, hrec]
          simp [List.filter_cons, h]
        · have hf : (cmp x z == 0) = false := by simpa using h
          rw [if_neg (by simp [hf] : ¬ (cmp x z == 0) = true), hrec]
          simp [List.filter_cons, hf]
      · intro y hy
        have hyxs : y ∈ xs := (sortCmp_perm cmp xs).mem_iff.mp hy
        exact htie x (List.mem_cons_self _ _) y (List.mem_cons_of_mem _ hyxs)

/-- C6: for a sequence of keyed mappings whose values under each sort key
are uniformly text or uniformly numbers (the regime where the comparator is
consistent; ECMA-262 leaves inconsistent comparators implementation-defined),
whose text key values are ASCII (the regime where the model's lowercasing
and text order coincide exactly with the source's Unicode `toLowerCase()`
and UTF-16 `<` — Unicode case tables are outside the model), and documented
order arguments, `sortBy` returns a new sequence that is a permutation of
the input, sorted by the spec's multi-key order (text case-insensitive,
missing order ascending, ties falling through to the next key), and stable
(elements tied under all keys keep their input order); and the spec's
case-insensitivity scenario sorts `amy` before `Bob`. -/
theorem sortBy_stable_multikey_sort :
    (∀ (xs : List Value) (keys orders : List String),
      homogKeys keys xs = true → validOrders orders = true →
      asciiKeys keys xs = true →
      ∃ ys, sortBy (.varr xs) keys orders = .ok (.varr ys) ∧
        List.Perm ys xs ∧
        List.Pairwise (fun a b => specCmp keys orders a b ≤ 0) ys ∧
        (∀ z ∈ xs, ys.filter (fun y => specCmp keys orders y z == 0)
          = xs.filter (fun y => specCmp keys orders y z == 0))) ∧
    sortBy (.varr [.vobj [("n", .vstr "Bob")], .vobj [("n", .vstr "amy")]]) ["n"] ["asc"]
      = .ok (.varr [.vobj [("n", .vstr "amy")], .vobj [("n", .vstr "Bob")]]) := by
  refine ⟨?_, by decide⟩
  intro xs keys orders hh hvo _
  have hkind : ∀ a ∈ xs, ∀ b ∈ xs, ∀ k ∈ keys, sameKind (getProp a k) (getProp b k) :=
    fun a ha b hb k hk => sameKind_of_homog hh hk ha hb
  have hbridge : ∀ a ∈ xs, ∀ b ∈ xs, cmpLoop keys orders a b = specCmp keys orders a b :=
    fun a ha b hb =>
      cmpLoop_eq_specCmp keys orders a b hvo (fun k hk => hkind a ha b hb k hk)
  refine ⟨sortCmp (cmpLoop keys orders) xs, rfl, sortCmp_perm _ _, ?_, ?_⟩
  · have hp : List.Pairwise (fun a b => cmpLoop keys orders a b ≤ 0)
        (sortCmp (cmpLoop keys orders) xs) := by
      refine sortCmp_pairwise _ (cmpLoop_neg keys orders) xs ?_
      intro a b c ha hb hc
      refine cmpLoop_le_trans keys orders a b c ?_
      intro k hk
      exact ⟨sameKind_lower (hkind a ha b hb k hk), sameKind_lower (hkind b hb c hc k hk)⟩
    refine hp.imp_of_mem ?_
    intro a b ha hb h
    have ha2 : a ∈ xs := (sortCmp_perm _ xs).mem_iff.mp ha
    have hb2 : b ∈ xs := (sortCmp_perm _ xs).mem_iff.mp hb
    rwa [hbridge a ha2 b hb2] at h
  · intro z hz
    have hfilter := sortCmp_filter_tie (cmpLoop keys orders) z xs ?_
    · have h1 : (sortCmp (cmpLoop keys orders) xs).filter
          (fun y => specCmp keys orders y z == 0)
          = (sortCmp (cmpLoop keys orders) xs).filter
            (fun y => cmpLoop keys orders y z == 0) := by
        refine List.filter_congr ?_
        intro y hy
        have hy2 : y ∈ xs := (sortCmp_perm _ xs).mem_iff.mp hy
        rw [hbridge y hy2 z hz]
      have h2 : xs.filter (fun y => specCmp keys orders y z == 0)
          = xs.filter (fun y => cmpLoop keys orders y z == 0) := by
        refine List.filter_congr ?_
        intro y hy
        rw [hbridge y hy z hz]
      rw [h1, h2, hfilter]
    · intro x hx y hy hxz hyz
      refine cmpLoop_zero_trans keys orders x y z ?_ hxz hyz
      intro k hk
      exact ⟨sameKind_lower (hkind x hx z hz k hk), sameKind_lower (hkind y hy z hz k hk)⟩

/-- Witness for C6 at the spec's case-insensitive scenario. -/
theorem sortBy_stable_multikey_sort_witness :
    homogKeys ["n"] [.vobj [("n", .vstr "Bob")], .vobj [("n", .vstr "amy")]] = true ∧
    validOrders ["asc"] = true ∧
    asciiKeys ["n"] [.vobj [("n", .vstr "Bob")], .vobj [("n", .vstr "amy")]] = true ∧
    (∃ ys, sortBy (.varr [.vobj [("n", .vstr "Bob")], .vobj [("n", .vstr "amy")]])
        ["n"] ["asc"] = .ok (.varr ys) ∧
      List.Perm ys [.vobj [("n", .vstr "Bob")], .vobj [("n", .vstr "amy")]] ∧
      List.Pairwise (fun a b => specCmp ["n"] ["asc"] a b ≤ 0) ys ∧
      (∀ z ∈ [Value.vobj [("n", .vstr "Bob")], .vobj [("n", .vstr "amy")]],
        ys.filter (fun y => specCmp ["n"] ["asc"] y z == 0)
          = [Value.vobj [("n", .vstr "Bob")], .vobj [("n", .vstr "amy")]].filter
              (fun y => specCmp ["n"] ["asc"] y z == 0))) :=
  ⟨by decide, by decide, by decide,
    sortBy_stable_multikey_sort.1 _ ["n"] ["asc"] (by decide) (by decide) (by decide)⟩

/-! ### Heap frame lemmas (for the mutation claims C5 and C9) -/

theorem Heap.size_alloc (σ : Heap) (c : Cell) : (σ.alloc c).1.size = σ.size + 1 := by
  simp [Heap.alloc, Heap.size]

theorem Heap.read_alloc_lt (σ : Heap) (c : Cell) (a : Nat) (h : a < σ.size) :
    (σ.alloc c).1.read a = σ.read a :=
  List.getElem?_append_left h

theorem Heap.read_alloc_self (σ : Heap) (c : Cell) :
    (σ.alloc c).1.read σ.size = some c :=
  List.getElem?_concat_length _ _

theorem Heap.size_store (σ : Heap) (a : Nat) (c : Cell) : (σ.store a c).size = σ.size := by
  simp [Heap.store, Heap.size]

theorem Heap.read_store_ne (σ : Heap) (a b : Nat) (c : Cell) (h : b ≠ a) :
    (σ.store a c).read b = σ.read b :=
  List.getElem?_set_ne (Ne.symm h)

theorem agreesBelow_refl (n : Nat) (σ : Heap) : agreesBelow n σ σ := fun _ _ => rfl

theorem agreesBelow_mono {m n : Nat} {σ σ2 : Heap} (h : m ≤ n)
    (ha : agreesBelow n σ σ2) : agreesBelow m σ σ2 :=
  fun a hlt => ha a (Nat.lt_of_lt_of_le hlt h)

theorem agreesBelow_trans {n m : Nat} {σ1 σ2 σ3 : Heap} (h : n ≤ m)
    (h12 : agreesBelow n σ1 σ2) (h23 : agreesBelow m σ2 σ3) : agreesBelow n σ1 σ3 :=
  fun a hlt => (h23 a (Nat.lt_of_lt_of_le hlt h)).trans (h12 a hlt)

theorem agreesBelow_alloc (n : Nat) (σ : Heap) (c : Cell) (h : n ≤ σ.size) :
    agreesBelow n σ (σ.alloc c).1 :=
  fun a hlt => Heap.read_alloc_lt σ c a (Nat.lt_of_lt_of_le hlt h)

theorem agreesBelow_store_ge (n : Nat) (σ : Heap) (a : Nat) (c : Cell) (h : n ≤ a) :
    agreesBelow n σ (σ.store a c) :=
  fun b hlt => Heap.read_store_ne σ a b c (Nat.ne_of_lt (Nat.lt_of_lt_of_le hlt h))

theorem writePropH_size (σ : Heap) (r : JSVal) (k : String) (v : JSVal) :
    (writePropH σ r k v).size = σ.size := by
  cases r with
  | prim p => rfl
  | ref a =>
      cases hc : σ.read a with
      | none => simp [writePropH, hc]
      | some c => cases c <;> simp [writePropH, hc, Heap.size_store]

theorem agreesBelow_writePropH (n : Nat) (σ : Heap) (r : JSVal) (k : String) (v : JSVal)
    (h : valFresh n r = true) : agreesBelow n σ (writePropH σ r k v) := by
  cases r with
  | prim p => exact agreesBelow_refl n σ
  | ref a =>
      have ha : n ≤ a := by simpa [valFresh] using h
      cases hc : σ.read a with
      | none => simp only [writePropH, hc]; exact agreesBelow_refl n σ
      | some c =>
          cases c <;> simp only [writePropH, hc]
          · exact agreesBelow_refl n σ
          · exact agreesBelow_refl n σ
          · exact agreesBelow_store_ge n σ a _ ha

theorem valFresh_mono {m n : Nat} (h : n ≤ m) {v : JSVal} (hv : valFresh m v = true) :
    valFresh n v = true := by
  cases v with
  | prim p => rfl
  | ref a => simp only [valFresh, decide_eq_true_eq] at hv ⊢; omega

theorem valBound_mono {n m : Nat} (h : n ≤ m) {v : JSVal} (hv : valBound n v = true) :
    valBound m v = true := by
  cases v with
  | prim p => rfl
  | ref a => simp only [valBound, decide_eq_true_eq] at hv ⊢; omega

theorem cellBound_mono {n m : Nat} (h : n ≤ m) {c : Cell} (hc : cellBound n c = true) :
    cellBound m c = true := by
  simp only [cellBound, List.all_eq_true] at hc ⊢
  exact fun v hv => valBound_mono h (hc v hv)

theorem cellFresh_mono {n m : Nat} (h : m ≤ n) {c : Cell} (hc : cellFresh n c = true) :
    cellFresh m c = true := by
  simp only [cellFresh, List.all_eq_true] at hc ⊢
  exact fun v hv => valFresh_mono h (hc v hv)

/-- Frame and freshness of the heap clone: cloning only appends cells (the
old segment is untouched), and every value it returns is a primitive or a
reference into the freshly allocated segment. -/
theorem cloneH_frame : ∀ f : Nat,
    (∀ σ v σ2 c, deepCloneH f σ v = some (σ2, c) →
      agreesBelow σ.size σ σ2 ∧ σ.size ≤ σ2.size ∧ valFresh σ.size c = true) ∧
    (∀ σ l σ2 cs, cloneListH f σ l = some (σ2, cs) →
      agreesBelow σ.size σ σ2 ∧ σ.size ≤ σ2.size ∧ cs.all (valFresh σ.size) = true) ∧
    (∀ σ l σ2 cs, cloneFieldsH f σ l = some (σ2, cs) →
      agreesBelow σ.size σ σ2 ∧ σ.size ≤ σ2.size ∧
        (cs.map Prod.snd).all (valFresh σ.size) = true) := by
  intro f
  induction f with
  | zero =>
      refine ⟨?_, ?_, ?_⟩
      · intro σ v σ2 c h; exact absurd h (by simp [deepCloneH])
      · intro σ l σ2 cs h
        cases l with
        | nil =>
            simp only [cloneListH, Option.some.injEq, Prod.mk.injEq] at h
            obtain ⟨rfl, rfl⟩ := h
            exact ⟨agreesBelow_refl _ _, Nat.le_refl _, rfl⟩
        | cons v vs => exact absurd h (by simp [cloneListH])
      · intro σ l σ2 cs h
        cases l with
        | nil =>
            simp only [cloneFieldsH, Option.some.injEq, Prod.mk.injEq] at h
            obtain ⟨rfl, rfl⟩ := h
            exact ⟨agreesBelow_refl _ _, Nat.le_refl _, rfl⟩
        | cons kv vs => exact absurd h (by simp [cloneFieldsH])
  | succ f ih =>
      obtain ⟨ihv, ihl, ihf⟩ := ih
      refine ⟨?_, ?_, ?_⟩
      · intro σ v σ2 c h
        cases v with
        | prim p =>
            simp only [deepCloneH, Option.some.injEq, Prod.mk.injEq] at h
            obtain ⟨rfl, rfl⟩ := h
            exact ⟨agreesBelow_refl _ _, Nat.le_refl _, rfl⟩
        | ref a =>
            simp only [deepCloneH] at h
            split at h
            · cases h
            · simp only [Option.some.injEq, Prod.mk.injEq] at h
              obtain ⟨rfl, rfl⟩ := h
              refine ⟨agreesBelow_alloc _ _ _ (Nat.le_refl _), ?_, ?_⟩
              · rw [Heap.size_alloc]; omega
              · simp [valFresh, Heap.alloc, Heap.size]
            · split at h
              · cases h
              · rename_i hcl
                simp only [Option.some.injEq, Prod.mk.injEq] at h
                obtain ⟨rfl, rfl⟩ := h
                obtain ⟨hag, hle, _⟩ := ihl _ _ _ _ hcl
                refine ⟨agreesBelow_trans hle hag
                  (agreesBelow_alloc _ _ _ (Nat.le_refl _)), ?_, ?_⟩
                · rw [Heap.size_alloc]; omega
                · simp only [valFresh, Heap.alloc, decide_eq_true_eq]
                  exact hle
            · split at h
              · cases h
              · rename_i hcl
                simp only [Option.some.injEq, Prod.mk.injEq] at h
                obtain ⟨rfl, rfl⟩ := h
                obtain ⟨hag, hle, _⟩ := ihf _ _ _ _ hcl
                refine ⟨agreesBelow_trans hle hag
                  (agreesBelow_alloc _ _ _ (Nat.le_refl _)), ?_, ?_⟩
                · rw [Heap.size_alloc]; omega
                · simp only [valFresh, Heap.alloc, decide_eq_true_eq]
                  exact hle
      · intro σ l σ2 cs h
        cases l with
        | nil =>
            simp only [cloneListH, Option.some.injEq, Prod.mk.injEq] at h
            obtain ⟨rfl, rfl⟩ := h
            exact ⟨agreesBelow_refl _ _, Nat.le_refl _, rfl⟩
        | cons v vs =>
            simp only [cloneListH] at h
            split at h
            · cases h
            · rename_i hd
              split at h
              · cases h
              · rename_i ht
                simp only [Option.some.injEq, Prod.mk.injEq] at h
                obtain ⟨rfl, rfl⟩ := h
                obtain ⟨hag1, hle1, hf1⟩ := ihv _ _ _ _ hd
                obtain ⟨hag2, hle2, hf2⟩ := ihl _ _ _ _ ht
                refine ⟨agreesBelow_trans hle1 hag1 hag2, Nat.le_trans hle1 hle2, ?_⟩
                simp only [List.all_cons, Bool.and_eq_true]
                refine ⟨hf1, ?_⟩
                simp only [List.all_eq_true] at hf2 ⊢
                exact fun x hx => valFresh_mono hle1 (hf2 x hx)
      · intro σ l σ2 cs h
        cases l with
        | nil =>
            simp only [cloneFieldsH, Option.some.injEq, Prod.mk.injEq] at h
            obtain ⟨rfl, rfl⟩ := h
            exact ⟨agreesBelow_refl _ _, Nat.le_refl _, rfl⟩
        | cons kv vs =>
            obtain ⟨k, v⟩ := kv
            simp only [cloneFieldsH] at h
            split at h
            · cases h
            · rename_i hd
              split at h
              · cases h
              · rename_i ht
                simp only [Option.some.injEq, Prod.mk.injEq] at h
                obtain ⟨rfl, rfl⟩ := h
                obtain ⟨hag1, hle1, hf1⟩ := ihv _ _ _ _ hd
                obtain ⟨hag2, hle2, hf2⟩ := ihf _ _ _ _ ht
                refine ⟨agreesBelow_trans hle1 hag1 hag2, Nat.le_trans hle1 hle2, ?_⟩
                simp only [List.map_cons, List.all_cons, Bool.and_eq_true]
                refine ⟨hf1, ?_⟩
                simp only [List.all_eq_true] at hf2 ⊢
                exact fun x hx => valFresh_mono hle1 (hf2 x hx)

/-- Frame of the heap merge: `deepMergeH` only appends cells and writes
into cells of the fresh segment (the clone of the target and any dead-store
`{}` allocations), so every cell below the original heap size is untouched.
The loop clause is stated relative to an arbitrary mark `n` below the
current heap with the result reference fresh above `n`. -/
theorem mergeH_frame : ∀ f : Nat,
    (∀ σ t s σ2 r, deepMergeH f σ t s = some (σ2, r) →
      agreesBelow σ.size σ σ2 ∧ σ.size ≤ σ2.size ∧ valFresh σ.size r = true) ∧
    (∀ σ t s r ks σ2 n, mergeLoopH f σ t s r ks = some σ2 →
      n ≤ σ.size → valFresh n r = true →
      agreesBelow n σ σ2 ∧ σ.size ≤ σ2.size) := by
  intro f
  induction f with
  | zero =>
      constructor
      · intro σ t s σ2 r h; exact absurd h (by simp [deepMergeH])
      · intro σ t s r ks σ2 n h hn hr
        cases ks with
        | nil =>
            simp only [mergeLoopH, Option.some.injEq] at h
            subst h
            exact ⟨agreesBelow_refl n σ, Nat.le_refl _⟩
        | cons k ks => exact absurd h (by simp [mergeLoopH])
  | succ f ih =>
      obtain ⟨ihm, ihl⟩ := ih
      constructor
      · intro σ t s σ2 r h
        simp only [deepMergeH] at h
        split at h
        · cases h
        · rename_i σ1 r1 hcl
          obtain ⟨hag1, hle1, hfr1⟩ := (cloneH_frame (f + 1)).1 σ t σ1 r1 hcl
          split at h
          · -- both operands are objects
            split at h
            · -- source is a reference
              split at h
              · -- source cell is a plain object: the key loop runs
                rw [Option.map_eq_some'] at h
                obtain ⟨σ2x, hml, hfn⟩ := h
                simp only [Prod.mk.injEq] at hfn
                obtain ⟨rfl, rfl⟩ := hfn
                obtain ⟨hag2, hle2⟩ := ihl _ t _ r1 _ σ2x σ.size hml hle1 hfr1
                exact ⟨agreesBelow_trans (Nat.le_refl _) hag1 hag2,
                  Nat.le_trans hle1 hle2, hfr1⟩
              · simp only [Option.some.injEq, Prod.mk.injEq] at h
                obtain ⟨rfl, rfl⟩ := h
                exact ⟨hag1, hle1, hfr1⟩
            · simp only [Option.some.injEq, Prod.mk.injEq] at h
              obtain ⟨rfl, rfl⟩ := h
              exact ⟨hag1, hle1, hfr1⟩
          · simp only [Option.some.injEq, Prod.mk.injEq] at h
            obtain ⟨rfl, rfl⟩ := h
            exact ⟨hag1, hle1, hfr1⟩
      · intro σ t s r ks σ2 n h hn hr
        cases ks with
        | nil =>
            simp only [mergeLoopH, Option.some.injEq] at h
            subst h
            exact ⟨agreesBelow_refl n σ, Nat.le_refl _⟩
        | cons k ks =>
            simp only [mergeLoopH] at h
            by_cases hio : isObjectH σ (getPropH σ s k) = true
            · rw [if_pos hio] at h
              by_cases htr : truthyH (getPropH σ t k) = true
              · rw [if_pos htr] at h
                split at h
                · cases h
                · rename_i σb m hdm
                  obtain ⟨hagb, hleb, _⟩ := ihm _ _ _ _ _ hdm
                  obtain ⟨hagl, hlel⟩ := ihl _ t s r ks σ2 n h
                    (by rw [writePropH_size]; omega)
                    hr
                  refine ⟨?_, ?_⟩
                  · refine agreesBelow_trans (Nat.le_refl n)
                      (agreesBelow_trans (Nat.le_refl n)
                        (agreesBelow_mono hn hagb)
                        (agreesBelow_writePropH n σb r k m hr)) hagl
                  · have h1 := writePropH_size σb r k m
                    omega
              · rw [if_neg htr] at h
                split at h
                · cases h
                · rename_i σb m hdm
                  obtain ⟨hagb, hleb, _⟩ := ihm _ _ _ _ _ hdm
                  have hsaag : agreesBelow n σ
                      (writePropH (σ.alloc (.obj [])).1 r k (.ref (σ.alloc (.obj [])).2)) :=
                    agreesBelow_trans (Nat.le_refl n)
                      (agreesBelow_alloc n σ _ hn)
                      (agreesBelow_writePropH n _ r k _ hr)
                  have hsasz :
                      (writePropH (σ.alloc (.obj [])).1 r k
                        (.ref (σ.alloc (.obj [])).2)).size = σ.size + 1 := by
                    rw [writePropH_size, Heap.size_alloc]
                  obtain ⟨hagl, hlel⟩ := ihl _ t s r ks σ2 n h
                    (by rw [writePropH_size]; omega)
                    hr
                  refine ⟨?_, ?_⟩
                  · refine agreesBelow_trans (Nat.le_refl n)
                      (agreesBelow_trans (Nat.le_refl n) hsaag
                        (agreesBelow_trans (Nat.le_refl n)
                          (agreesBelow_mono (by omega) hagb)
                          (agreesBelow_writePropH n σb r k m hr))) hagl
                  · have h1 := writePropH_size σb r k m
                    omega
            · rw [if_neg hio] at h
              obtain ⟨hagl, hlel⟩ := ihl _ t s r ks σ2 n h
                (by rw [writePropH_size]; omega) hr
              refine ⟨agreesBelow_trans (Nat.le_refl n)
                (agreesBelow_writePropH n σ r k _ hr) hagl, ?_⟩
              have h1 := writePropH_size σ r k (getPropH σ s k)
              omega

theorem heapWF_iff {σ : Heap} :
    heapWF σ = true ↔ ∀ a c, σ.read a = some c → cellBound σ.size c = true := by
  simp only [heapWF, List.all_eq_true]
  constructor
  · intro h a c hr
    exact h c (List.getElem?_mem hr)
  · intro h c hc
    obtain ⟨a, ha⟩ := List.mem_iff_getElem?.mp hc
    exact h a c ha

theorem freshSegClosed_iff {n : Nat} {σ : Heap} :
    freshSegClosed n σ = true ↔
      ∀ a c, n ≤ a → σ.read a = some c → cellFresh n c = true := by
  simp only [freshSegClosed, List.all_eq_true]
  constructor
  · intro h a c ha hr
    have hd : (σ.cells.drop n)[a - n]? = some c := by
      rw [List.getElem?_drop, Nat.add_sub_cancel' ha]
      exact hr
    exact h c (List.getElem?_mem hd)
  · intro h c hc
    obtain ⟨i, hi⟩ := List.mem_iff_getElem?.mp hc
    rw [List.getElem?_drop] at hi
    exact h (n + i) c (Nat.le_add_right n i) hi

theorem heapWF_alloc {σ : Heap} {c : Cell} (h : heapWF σ = true)
    (hc : cellBound σ.size c = true) : heapWF (σ.alloc c).1 = true := by
  have hsz : (σ.alloc c).1.size = σ.size + 1 := Heap.size_alloc σ c
  simp only [heapWF, List.all_eq_true] at h ⊢
  intro x hx
  rw [hsz]
  have hx2 : x ∈ σ.cells ∨ x = c := by
    simpa [Heap.alloc] using hx
  cases hx2 with
  | inl hm => exact cellBound_mono (Nat.le_succ _) (h x hm)
  | inr he => subst he; exact cellBound_mono (Nat.le_succ _) hc

theorem freshSegClosed_refl (σ : Heap) : freshSegClosed σ.size σ = true := by
  simp [freshSegClosed, Heap.size, List.drop_length]

theorem freshSegClosed_alloc {n : Nat} {σ : Heap} {c : Cell}
    (hn : n ≤ σ.size) (h : freshSegClosed n σ = true) (hc : cellFresh n c = true) :
    freshSegClosed n (σ.alloc c).1 = true := by
  simp only [freshSegClosed, Heap.alloc] at h ⊢
  rw [List.drop_append_of_le_length hn, List.all_append]
  simp [h, hc]

theorem freshSegClosed_step {n : Nat} {σ1 σ2 : Heap}
    (hn : n ≤ σ1.size)
    (h1 : freshSegClosed n σ1 = true)
    (hag : agreesBelow σ1.size σ1 σ2)
    (h2 : freshSegClosed σ1.size σ2 = true) :
    freshSegClosed n σ2 = true := by
  rw [freshSegClosed_iff]
  intro a c ha hr
  by_cases hlt : a < σ1.size
  · have hr1 : σ1.read a = some c := (hag a hlt).symm.trans hr
    exact (freshSegClosed_iff.mp h1) a c ha hr1
  · exact cellFresh_mono hn ((freshSegClosed_iff.mp h2) a c (Nat.le_of_not_lt hlt) hr)

/-- Two heaps that agree below `n`, the first of which only stores
`n`-bounded cells below `n`, decode every `n`-bounded value identically:
reading back a value never looks at cells the two heaps disagree on. -/
theorem decode_agree : ∀ g n : Nat, ∀ σ1 σ2 : Heap,
    (∀ a c, a < n → σ1.read a = some c → cellBound n c = true) →
    agreesBelow n σ1 σ2 →
    (∀ v, valBound n v = true → decode g σ1 v = decode g σ2 v) ∧
    (∀ l, l.all (valBound n) = true → decodeList g σ1 l = decodeList g σ2 l) ∧
    (∀ l, (l.map Prod.snd).all (valBound n) = true →
      decodeFields g σ1 l = decodeFields g σ2 l) := by
  intro g
  induction g with
  | zero =>
      intro n σ1 σ2 hb hag
      refine ⟨fun v _ => rfl, fun l _ => ?_, fun l _ => ?_⟩
      · cases l with
        | nil => rfl
        | cons v vs => rfl
      · cases l with
        | nil => rfl
        | cons kv vs => rfl
  | succ g ihg =>
      intro n σ1 σ2 hb hag
      obtain ⟨ih1, ih2, ih3⟩ := ihg n σ1 σ2 hb hag
      refine ⟨?_, ?_, ?_⟩
      · intro v hv
        cases v with
        | prim p => rfl
        | ref a =>
            have ha : a < n := by simpa [valBound] using hv
            have h2 : σ2.read a = σ1.read a := hag a ha
            cases hc : σ1.read a with
            | none => simp [decode, h2, hc]
            | some c =>
                cases c with
                | date t => simp [decode, h2, hc]
                | arr xs =>
                    have hxs : xs.all (valBound n) = true := by
                      simpa [cellBound, cellVals] using hb a _ ha hc
                    simp only [decode, h2, hc]
                    rw [ih2 xs hxs]
                | obj fs =>
                    have hfs : (fs.map Prod.snd).all (valBound n) = true := by
                      simpa [cellBound, cellVals] using hb a _ ha hc
                    simp only [decode, h2, hc]
                    rw [ih3 fs hfs]
      · intro l hl
        cases l with
        | nil => rfl
        | cons v vs =>
            simp only [List.all_cons, Bool.and_eq_true] at hl
            simp only [decodeList, ih1 v hl.1, ih2 vs hl.2]
      · intro l hl
        cases l with
        | nil => rfl
        | cons kv vs =>
            obtain ⟨k, v⟩ := kv
            simp only [List.map_cons, List.all_cons, Bool.and_eq_true] at hl
            simp only [decodeFields, ih1 v hl.1, ih3 vs hl.2]

theorem heapWF_below {σ : Heap} (h : heapWF σ = true) :
    ∀ a c, a < σ.size → σ.read a = some c → cellBound σ.size c = true :=
  fun a c _ hr => heapWF_iff.mp h a c hr

/-- Correctness of the heap clone on a well-formed heap: the result heap is
well formed, the clone is in-heap, the fresh segment is closed (no reference
from the clone reaches back into the old heap), decoding the input succeeds,
and the clone denotes exactly the same value tree as the input — in
particular every date cell reappears as a fresh date cell with the same
timestamp. -/
theorem cloneH_ok : ∀ f : Nat,
    (∀ σ v σ2 c, deepCloneH f σ v = some (σ2, c) →
        heapWF σ = true → valBound σ.size v = true →
      heapWF σ2 = true ∧ valBound σ2.size c = true ∧
        freshSegClosed σ.size σ2 = true ∧
        (decode f σ v).isSome = true ∧ decode f σ2 c = decode f σ v) ∧
    (∀ σ l σ2 cs, cloneListH f σ l = some (σ2, cs) →
        heapWF σ = true → l.all (valBound σ.size) = true →
      heapWF σ2 = true ∧ cs.all (valBound σ2.size) = true ∧
        freshSegClosed σ.size σ2 = true ∧
        (decodeList f σ l).isSome = true ∧ decodeList f σ2 cs = decodeList f σ l) ∧
    (∀ σ l σ2 cs, cloneFieldsH f σ l = some (σ2, cs) →
        heapWF σ = true → (l.map Prod.snd).all (valBound σ.size) = true →
      heapWF σ2 = true ∧ (cs.map Prod.snd).all (valBound σ2.size) = true ∧
        freshSegClosed σ.size σ2 = true ∧
        (decodeFields f σ l).isSome = true ∧
        decodeFields f σ2 cs = decodeFields f σ l) := by
  intro f
  induction f with
  | zero =>
      refine ⟨?_, ?_, ?_⟩
      · intro σ v σ2 c h; exact absurd h (by simp [deepCloneH])
      · intro σ l σ2 cs h hwf hb
        cases l with
        | nil =>
            simp only [cloneListH, Option.some.injEq, Prod.mk.injEq] at h
            obtain ⟨rfl, rfl⟩ := h
            exact ⟨hwf, rfl, freshSegClosed_refl σ, rfl, rfl⟩
        | cons v vs => exact absurd h (by simp [cloneListH])
      · intro σ l σ2 cs h hwf hb
        cases l with
        | nil =>
            simp only [cloneFieldsH, Option.some.injEq, Prod.mk.injEq] at h
            obtain ⟨rfl, rfl⟩ := h
            exact ⟨hwf, rfl, freshSegClosed_refl σ, rfl, rfl⟩
        | cons kv vs => exact absurd h (by simp [cloneFieldsH])
  | succ f ih =>
      obtain ⟨ihv, ihl, ihf⟩ := ih
      refine ⟨?_, ?_, ?_⟩
      · intro σ v σ2 c h hwf hb
        cases v with
        | prim p =>
            simp only [deepCloneH, Option.some.injEq, Prod.mk.injEq] at h
            obtain ⟨rfl, rfl⟩ := h
            exact ⟨hwf, rfl, freshSegClosed_refl σ, rfl, rfl⟩
        | ref a =>
            simp only [deepCloneH] at h
            split at h
            · cases h
            · -- date cell
              rename_i t hrd
              simp only [Option.some.injEq, Prod.mk.injEq] at h
              obtain ⟨rfl, rfl⟩ := h
              have hread : (σ.alloc (.date t)).1.read (σ.alloc (.date t)).2
                  = some (.date t) := Heap.read_alloc_self σ _
              refine ⟨heapWF_alloc hwf rfl, ?_, ?_, ?_, ?_⟩
              · simp only [valBound, Heap.alloc, Heap.size, List.length_append,
                  List.length_cons, List.length_nil, decide_eq_true_eq]
                omega
              · exact freshSegClosed_alloc (Nat.le_refl _) (freshSegClosed_refl σ) rfl
              · simp [decode, hrd]
              · simp [decode, hrd, hread]
            · -- array cell
              rename_i xs hrd
              split at h
              · cases h
              · rename_i σ1 ys hcl
                simp only [Option.some.injEq, Prod.mk.injEq] at h
                obtain ⟨rfl, rfl⟩ := h
                have hxs : xs.all (valBound σ.size) = true := by
                  simpa [cellBound, cellVals] using heapWF_iff.mp hwf a _ hrd
                obtain ⟨hagL, hleL, hfreshL⟩ := (cloneH_frame f).2.1 _ _ _ _ hcl
                obtain ⟨hwf1, hbys, hclosed1, hsomeL, hdecL⟩ := ihl _ _ _ _ hcl hwf hxs
                obtain ⟨ts, hts⟩ := Option.isSome_iff_exists.mp hsomeL
                have hread : (σ1.alloc (.arr ys)).1.read (σ1.alloc (.arr ys)).2
                    = some (.arr ys) := Heap.read_alloc_self σ1 _
                have hagys := (decode_agree f σ1.size σ1 (σ1.alloc (.arr ys)).1
                  (heapWF_below hwf1)
                  (agreesBelow_alloc σ1.size σ1 _ (Nat.le_refl _))).2.1 ys hbys
                refine ⟨heapWF_alloc hwf1 (by simpa [cellBound, cellVals] using hbys),
                  ?_, ?_, ?_, ?_⟩
                · simp only [valBound, Heap.alloc, Heap.size, List.length_append,
                    List.length_cons, List.length_nil, decide_eq_true_eq]
                  omega
                · exact freshSegClosed_alloc hleL hclosed1
                    (by simpa [cellFresh, cellVals] using hfreshL)
                · simp [decode, hrd, hts]
                · simp only [decode, hrd, hread]
                  rw [← hagys, hdecL]
            · -- object cell
              rename_i fs hrd
              split at h
              · cases h
              · rename_i σ1 gs hcl
                simp only [Option.some.injEq, Prod.mk.injEq] at h
                obtain ⟨rfl, rfl⟩ := h
                have hfs : (fs.map Prod.snd).all (valBound σ.size) = true := by
                  simpa [cellBound, cellVals] using heapWF_iff.mp hwf a _ hrd
                obtain ⟨hagL, hleL, hfreshL⟩ := (cloneH_frame f).2.2 _ _ _ _ hcl
                obtain ⟨hwf1, hbgs, hclosed1, hsomeL, hdecL⟩ := ihf _ _ _ _ hcl hwf hfs
                obtain ⟨ts, hts⟩ := Option.isSome_iff_exists.mp hsomeL
                have hread : (σ1.alloc (.obj gs)).1.read (σ1.alloc (.obj gs)).2
                    = some (.obj gs) := Heap.read_alloc_self σ1 _
                have haggs := (decode_agree f σ1.size σ1 (σ1.alloc (.obj gs)).1
                  (heapWF_below hwf1)
                  (agreesBelow_alloc σ1.size σ1 _ (Nat.le_refl _))).2.2 gs hbgs
                refine ⟨heapWF_alloc hwf1 (by simpa [cellBound, cellVals] using hbgs),
                  ?_, ?_, ?_, ?_⟩
                · simp only [valBound, Heap.alloc, Heap.size, List.length_append,
                    List.length_cons, List.length_nil, decide_eq_true_eq]
                  omega
                · exact freshSegClosed_alloc hleL hclosed1
                    (by simpa [cellFresh, cellVals] using hfreshL)
                · simp [decode, hrd, hts]
                · simp only [decode, hrd, hread]
                  rw [← haggs, hdecL]
      · intro σ l σ2 cs h hwf hb
        cases l with
        | nil =>
            simp only [cloneListH, Option.some.injEq, Prod.mk.injEq] at h
            obtain ⟨rfl, rfl⟩ := h
            exact ⟨hwf, rfl, freshSegClosed_refl σ, rfl, rfl⟩
        | cons v vs =>
            simp only [List.all_cons, Bool.and_eq_true] at hb
            obtain ⟨hv, hvs⟩ := hb
            simp only [cloneListH] at h
            split at h
            · cases h
            · rename_i σ1 c1 hd
              split at h
              · cases h
              · rename_i σ2x cs1 ht
                simp only [Option.some.injEq, Prod.mk.injEq] at h
                obtain ⟨rfl, rfl⟩ := h
                obtain ⟨hag1, hle1, _⟩ := (cloneH_frame f).1 _ _ _ _ hd
                obtain ⟨hag2, hle2, _⟩ := (cloneH_frame f).2.1 _ _ _ _ ht
                obtain ⟨hwf1, hbc1, hcl1, hsome1, hdec1⟩ := ihv _ _ _ _ hd hwf hv
                have hvs1 : vs.all (valBound σ1.size) = true := by
                  simp only [List.all_eq_true] at hvs ⊢
                  exact fun x hx => valBound_mono hle1 (hvs x hx)
                obtain ⟨hwf2, hbcs, hcl2, hsome2, hdec2⟩ := ihl _ _ _ _ ht hwf1 hvs1
                have hagvs := (decode_agree f σ.size σ σ1
                  (heapWF_below hwf) hag1).2.1 vs hvs
                have hagc1 := (decode_agree f σ1.size σ1 σ2x
                  (heapWF_below hwf1) hag2).1 c1 hbc1
                obtain ⟨t1, ht1⟩ := Option.isSome_iff_exists.mp hsome1
                obtain ⟨ts, hts⟩ := Option.isSome_iff_exists.mp hsome2
                have htsσ : decodeList f σ vs = some ts := by
                  rw [hagvs]
                  exact hts
                refine ⟨hwf2, ?_, freshSegClosed_step hle1 hcl1 hag2 hcl2, ?_, ?_⟩
                · simp only [List.all_cons, Bool.and_eq_true]
                  exact ⟨valBound_mono hle2 hbc1, hbcs⟩
                · simp [decodeList, ht1, htsσ]
                · have e1 : decode f σ2x c1 = decode f σ v := hagc1.symm.trans hdec1
                  have e2 : decodeList f σ2x cs1 = decodeList f σ vs :=
                    hdec2.trans hagvs.symm
                  simp only [decodeList, e1, e2]
      · intro σ l σ2 cs h hwf hb
        cases l with
        | nil =>
            simp only [cloneFieldsH, Option.some.injEq, Prod.mk.injEq] at h
            obtain ⟨rfl, rfl⟩ := h
            exact ⟨hwf, rfl, freshSegClosed_refl σ, rfl, rfl⟩
        | cons kv vs =>
            obtain ⟨k, v⟩ := kv
            simp only [List.map_cons, List.all_cons, Bool.and_eq_true] at hb
            obtain ⟨hv, hvs⟩ := hb
            simp only [cloneFieldsH] at h
            split at h
            · cases h
            · rename_i σ1 c1 hd
              split at h
              · cases h
              · rename_i σ2x cs1 ht
                simp only [Option.some.injEq, Prod.mk.injEq] at h
                obtain ⟨rfl, rfl⟩ := h
                obtain ⟨hag1, hle1, _⟩ := (cloneH_frame f).1 _ _ _ _ hd
                obtain ⟨hag2, hle2, _⟩ := (cloneH_frame f).2.2 _ _ _ _ ht
                obtain ⟨hwf1, hbc1, hcl1, hsome1, hdec1⟩ := ihv _ _ _ _ hd hwf hv
                have hvs1 : (vs.map Prod.snd).all (valBound σ1.size) = true := by
                  simp only [List.all_eq_true] at hvs ⊢
                  exact fun x hx => valBound_mono hle1 (hvs x hx)
                obtain ⟨hwf2, hbcs, hcl2, hsome2, hdec2⟩ := ihf _ _ _ _ ht hwf1 hvs1
                have hagvs := (decode_agree f σ.size σ σ1
                  (heapWF_below hwf) hag1).2.2 vs hvs
                have hagc1 := (decode_agree f σ1.size σ1 σ2x
                  (heapWF_below hwf1) hag2).1 c1 hbc1
                obtain ⟨t1, ht1⟩ := Option.isSome_iff_exists.mp hsome1
                obtain ⟨ts, hts⟩ := Option.isSome_iff_exists.mp hsome2
                have htsσ : decodeFields f σ vs = some ts := by
                  rw [hagvs]
                  exact hts
                refine ⟨hwf2, ?_, freshSegClosed_step hle1 hcl1 hag2 hcl2, ?_, ?_⟩
                · simp only [List.map_cons, List.all_cons, Bool.and_eq_true]
                  exact ⟨valBound_mono hle2 hbc1, hbcs⟩
                · simp [decodeFields, ht1, htsσ]
                · have e1 : decode f σ2x c1 = decode f σ v := hagc1.symm.trans hdec1
                  have e2 : decodeFields f σ2x cs1 = decodeFields f σ vs :=
                    hdec2.trans hagvs.symm
                  simp only [decodeFields, e1, e2]

/-- **C5.** `Utils.deepMerge(target, source)` (source lines 1346-1366) never
mutates its first argument.  In the heap model: whenever the merge returns,
the result heap agrees with the original heap on every pre-existing cell
(the call only appends fresh cells and writes into them), so on a
well-formed heap the value tree denoted by `target` after the call is
exactly the value tree it denoted before, at every read-back fuel. -/
theorem deepMerge_never_mutates_target
    (f : Nat) (σ : Heap) (t s : JSVal) (σ2 : Heap) (r : JSVal)
    (hm : deepMergeH f σ t s = some (σ2, r))
    (hwf : heapWF σ = true) (hbt : valBound σ.size t = true) :
    agreesBelow σ.size σ σ2 ∧ σ.size ≤ σ2.size ∧
      ∀ g, decode g σ2 t = decode g σ t := by
  obtain ⟨hag, hle, _⟩ := (mergeH_frame f).1 σ t s σ2 r hm
  refine ⟨hag, hle, fun g => ?_⟩
  exact ((decode_agree g σ.size σ σ2 (heapWF_below hwf) hag).1 t hbt).symm

/-- Witness for C5: merging `{a:1, b:{c:2}}` with `{b:9, d:"x"}` on a
concrete heap leaves every original cell untouched. -/
theorem deepMerge_never_mutates_target_witness :
    (deepMergeH 6
        (Heap.mk [.obj [("a", .prim (.pnum 1)), ("b", .ref 1)],
          .obj [("c", .prim (.pnum 2))],
          .obj [("b", .prim (.pnum 9)), ("d", .prim (.pstr "x"))]])
        (.ref 0) (.ref 2)
      = some (Heap.mk [.obj [("a", .prim (.pnum 1)), ("b", .ref 1)],
          .obj [("c", .prim (.pnum 2))],
          .obj [("b", .prim (.pnum 9)), ("d", .prim (.pstr "x"))],
          .obj [("c", .prim (.pnum 2))],
          .obj [("a", .prim (.pnum 1)), ("b", .prim (.pnum 9)),
            ("d", .prim (.pstr "x"))]], .ref 4)) ∧
    heapWF (Heap.mk [.obj [("a", .prim (.pnum 1)), ("b", .ref 1)],
      .obj [("c", .prim (.pnum 2))],
      .obj [("b", .prim (.pnum 9)), ("d", .prim (.pstr "x"))]]) = true ∧
    valBound (Heap.size (Heap.mk [.obj [("a", .prim (.pnum 1)), ("b", .ref 1)],
      .obj [("c", .prim (.pnum 2))],
      .obj [("b", .prim (.pnum 9)), ("d", .prim (.pstr "x"))]])) (.ref 0) = true ∧
    (agreesBelow
        (Heap.size (Heap.mk [.obj [("a", .prim (.pnum 1)), ("b", .ref 1)],
          .obj [("c", .prim (.pnum 2))],
          .obj [("b", .prim (.pnum 9)), ("d", .prim (.pstr "x"))]]))
        (Heap.mk [.obj [("a", .prim (.pnum 1)), ("b", .ref 1)],
          .obj [("c", .prim (.pnum 2))],
          .obj [("b", .prim (.pnum 9)), ("d", .prim (.pstr "x"))]])
        (Heap.mk [.obj [("a", .prim (.pnum 1)), ("b", .ref 1)],
          .obj [("c", .prim (.pnum 2))],
          .obj [("b", .prim (.pnum 9)), ("d", .prim (.pstr "x"))],
          .obj [("c", .prim (.pnum 2))],
          .obj [("a", .prim (.pnum 1)), ("b", .prim (.pnum 9)),
            ("d", .prim (.pstr "x"))]]) ∧
      Heap.size (Heap.mk [.obj [("a", .prim (.pnum 1)), ("b", .ref 1)],
          .obj [("c", .prim (.pnum 2))],
          .obj [("b", .prim (.pnum 9)), ("d", .prim (.pstr "x"))]])
        ≤ Heap.size (Heap.mk [.obj [("a", .prim (.pnum 1)), ("b", .ref 1)],
          .obj [("c", .prim (.pnum 2))],
          .obj [("b", .prim (.pnum 9)), ("d", .prim (.pstr "x"))],
          .obj [("c", .prim (.pnum 2))],
          .obj [("a", .prim (.pnum 1)), ("b", .prim (.pnum 9)),
            ("d", .prim (.pstr "x"))]]) ∧
      ∀ g, decode g
          (Heap.mk [.obj [("a", .prim (.pnum 1)), ("b", .ref 1)],
            .obj [("c", .prim (.pnum 2))],
            .obj [("b", .prim (.pnum 9)), ("d", .prim (.pstr "x"))],
            .obj [("c", .prim (.pnum 2))],
            .obj [("a", .prim (.pnum 1)), ("b", .prim (.pnum 9)),
              ("d", .prim (.pstr "x"))]]) (.ref 0)
        = decode g
          (Heap.mk [.obj [("a", .prim (.pnum 1)), ("b", .ref 1)],
            .obj [("c", .prim (.pnum 2))],
            .obj [("b", .prim (.pnum 9)), ("d", .prim (.pstr "x"))]]) (.ref 0)) :=
  ⟨by decide, by decide, by decide,
    deepMerge_never_mutates_target 6
      (Heap.mk [.obj [("a", .prim (.pnum 1)), ("b", .ref 1)],
        .obj [("c", .prim (.pnum 2))],
        .obj [("b", .prim (.pnum 9)), ("d", .prim (.pstr "x"))]])
      (.ref 0) (.ref 2)
      (Heap.mk [.obj [("a", .prim (.pnum 1)), ("b", .ref 1)],
        .obj [("c", .prim (.pnum 2))],
        .obj [("b", .prim (.pnum 9)), ("d", .prim (.pstr "x"))],
        .obj [("c", .prim (.pnum 2))],
        .obj [("a", .prim (.pnum 1)), ("b", .prim (.pnum 9)),
          ("d", .prim (.pstr "x"))]])
      (.ref 4) (by decide) (by decide) (by decide)⟩

/-- **C9.** `Utils.deepClone(v)` (source lines 1312-1338) shares no mutable
substructure with its input: on a well-formed heap the clone decodes to
exactly the same value tree as the input (so a date cell reappears as a
date with the same timestamp, but — by freshness — in a newly allocated
cell), every reference in the clone lies in the freshly allocated segment,
that segment never references back into the old heap, and overwriting any
fresh cell (in particular any cell reachable from the clone) leaves the
tree denoted by the input unchanged. -/
theorem deepClone_no_shared_substructure
    (f : Nat) (σ : Heap) (v : JSVal) (σ2 : Heap) (c : JSVal)
    (hc : deepCloneH f σ v = some (σ2, c))
    (hwf : heapWF σ = true) (hb : valBound σ.size v = true) :
    ((decode f σ v).isSome = true ∧ decode f σ2 c = decode f σ v) ∧
    (valFresh σ.size c = true ∧ freshSegClosed σ.size σ2 = true) ∧
    (∀ a cell, σ.size ≤ a →
      ∀ g, decode g (σ2.store a cell) v = decode g σ v) := by
  obtain ⟨hag, hle, hfr⟩ := (cloneH_frame f).1 σ v σ2 c hc
  obtain ⟨hwf2, hb2, hclosed, hsome, hdec⟩ := (cloneH_ok f).1 σ v σ2 c hc hwf hb
  refine ⟨⟨hsome, hdec⟩, ⟨hfr, hclosed⟩, ?_⟩
  intro a cell ha g
  have hag2 : agreesBelow σ.size σ (σ2.store a cell) :=
    agreesBelow_trans (Nat.le_refl _) hag (agreesBelow_store_ge σ.size σ2 a cell ha)
  exact ((decode_agree g σ.size σ (σ2.store a cell)
    (heapWF_below hwf) hag2).1 v hb).symm

/-- Witness for C9: cloning `{d: new Date(42), n: 1}` on a concrete heap
allocates a fresh date cell with the same timestamp and a fresh object
cell, and mutating any fresh cell leaves the input's tree unchanged. -/
theorem deepClone_no_shared_substructure_witness :
    (deepCloneH 4 (Heap.mk [.date 42, .obj [("d", .ref 0), ("n", .prim (.pnum 1))]])
        (.ref 1)
      = some (Heap.mk [.date 42, .obj [("d", .ref 0), ("n", .prim (.pnum 1))],
          .date 42, .obj [("d", .ref 2), ("n", .prim (.pnum 1))]], .ref 3)) ∧
    heapWF (Heap.mk [.date 42, .obj [("d", .ref 0), ("n", .prim (.pnum 1))]]) = true ∧
    valBound (Heap.size (Heap.mk [.date 42,
      .obj [("d", .ref 0), ("n", .prim (.pnum 1))]])) (.ref 1) = true ∧
    (((decode 4 (Heap.mk [.date 42, .obj [("d", .ref 0), ("n", .prim (.pnum 1))]])
          (.ref 1)).isSome = true ∧
      decode 4 (Heap.mk [.date 42, .obj [("d", .ref 0), ("n", .prim (.pnum 1))],
          .date 42, .obj [("d", .ref 2), ("n", .prim (.pnum 1))]]) (.ref 3)
        = decode 4 (Heap.mk [.date 42,
          .obj [("d", .ref 0), ("n", .prim (.pnum 1))]]) (.ref 1)) ∧
     (valFresh (Heap.size (Heap.mk [.date 42,
          .obj [("d", .ref 0), ("n", .prim (.pnum 1))]])) (.ref 3) = true ∧
      freshSegClosed (Heap.size (Heap.mk [.date 42,
          .obj [("d", .ref 0), ("n", .prim (.pnum 1))]]))
        (Heap.mk [.date 42, .obj [("d", .ref 0), ("n", .prim (.pnum 1))],
          .date 42, .obj [("d", .ref 2), ("n", .prim (.pnum 1))]]) = true) ∧
     (∀ a cell,
        Heap.size (Heap.mk [.date 42, .obj [("d", .ref 0), ("n", .prim (.pnum 1))]])
          ≤ a →
        ∀ g, decode g
            ((Heap.mk [.date 42, .obj [("d", .ref 0), ("n", .prim (.pnum 1))],
              .date 42, .obj [("d", .ref 2), ("n", .prim (.pnum 1))]]).store a cell)
            (.ref 1)
          = decode g (Heap.mk [.date 42,
            .obj [("d", .ref 0), ("n", .prim (.pnum 1))]]) (.ref 1))) :=
  ⟨by decide, by decide, by decide,
    deepClone_no_shared_substructure 4
      (Heap.mk [.date 42, .obj [("d", .ref 0), ("n", .prim (.pnum 1))]])
      (.ref 1)
      (Heap.mk [.date 42, .obj [("d", .ref 0), ("n", .prim (.pnum 1))],
        .date 42, .obj [("d", .ref 2), ("n", .prim (.pnum 1))]])
      (.ref 3) (by decide) (by decide) (by decide)⟩

end Omni
